import Mathlib

/-!
# Verification of the `html` query engine of dorkali

The development embeds `src/html/html.go`: the predicate `Match` and its
evaluation `MatchNode`, the two tree walks `selectNode` and `selectAllNodes`
behind `Find` and `FindAll`, and the text extraction `Element.Text`.

The Go code works on a pointer graph of nodes (`Parent`, `FirstChild`,
`NextSibling`).  Here a tree is an immutable value and a node *in* a tree is a
`Loc`: the node together with the chain of its ancestors, each paired with the
index of the child through which the chain descends.  `node.Parent` and
`node.FirstChild` are then total functions to `Option Loc`.
-/

namespace Dorkali

/-- Modelled from the spec: the node kinds of the external markup library
(`html.NodeType`), whose declaration is not part of the sources. -/
inductive NodeType where
  | TextNode
  | DocumentNode
  | ElementNode
  | CommentNode
  deriving DecidableEq, Repr

/-- Modelled from the spec: an attribute pair of the external markup library
(`html.Attribute`), whose declaration is not part of the sources. -/
structure Attribute where
  Namespace : String
  Key : String
  Val : String
  deriving DecidableEq, Repr

/-- Modelled from the spec: a node of the external markup library
(`html.Node`), whose declaration is not part of the sources.  `Data` is the tag
of an element and the content of a text or comment node; `Attr` is a Go slice,
`none` standing for the nil slice; `children` is the sibling chain starting at
`FirstChild`. -/
inductive Node where
  | mk (Typ : NodeType) (Data : String) (Attr : Option (List Attribute))
      (children : List Node)

/-- Field `Type` of a node (`Type` is reserved in Lean). -/
def Node.Typ : Node → NodeType
  | .mk t _ _ _ => t

/-- Field `Data` of a node. -/
def Node.Data : Node → String
  | .mk _ d _ _ => d

/-- Field `Attr` of a node. -/
def Node.Attr : Node → Option (List Attribute)
  | .mk _ _ a _ => a

/-- The children of a node, in sibling order. -/
def Node.children : Node → List Node
  | .mk _ _ _ cs => cs

mutual
/-- Equality of nodes is decidable. -/
def Node.decEq : (x y : Node) → Decidable (x = y)
  | .mk t1 d1 a1 c1, .mk t2 d2 a2 c2 =>
    if ht : t1 = t2 then
      if hd : d1 = d2 then
        if ha : a1 = a2 then
          match Node.decEqList c1 c2 with
          | isTrue hc => isTrue (by rw [ht, hd, ha, hc])
          | isFalse hc => isFalse (fun h => hc (Node.mk.inj h).2.2.2)
        else isFalse (fun h => ha (Node.mk.inj h).2.2.1)
      else isFalse (fun h => hd (Node.mk.inj h).2.1)
    else isFalse (fun h => ht (Node.mk.inj h).1)
/-- Equality of lists of nodes is decidable. -/
def Node.decEqList : (xs ys : List Node) → Decidable (xs = ys)
  | [], [] => isTrue rfl
  | [], _ :: _ => isFalse (fun h => List.noConfusion h)
  | _ :: _, [] => isFalse (fun h => List.noConfusion h)
  | x :: xs, y :: ys =>
    match Node.decEq x y with
    | isTrue hx =>
      match Node.decEqList xs ys with
      | isTrue hxs => isTrue (by rw [hx, hxs])
      | isFalse hxs => isFalse (fun h => hxs (List.cons.inj h).2)
    | isFalse hx => isFalse (fun h => hx (List.cons.inj h).1)
end

instance : DecidableEq Node := Node.decEq

/-- A node inside a tree: `ctx` lists the ancestors, nearest first, each with
the index of the child on the way down to `node`. -/
structure Loc where
  ctx : List (Node × Nat)
  node : Node
  deriving DecidableEq

/-- The `Parent` link of a node (`nil` at the root). -/
def Loc.Parent (l : Loc) : Option Loc :=
  match l.ctx with
  | [] => none
  | (p, _) :: rest => some ⟨rest, p⟩

/-- The `FirstChild` link of a node (`nil` when it has no child). -/
def Loc.FirstChild (l : Loc) : Option Loc :=
  match l.node.children with
  | [] => none
  | c :: _ => some ⟨(l.node, 0) :: l.ctx, c⟩

/-- The predicate `Match` of `html.go`.  `Attributes` is a Go map, `none`
standing for the nil map and the list holding its entries. -/
inductive Match where
  | mk (Name : String) (Attributes : Option (List (String × String)))
      (Parent : Option Match) (FirstChild : Option Match)

/-- Field `Name`. -/
def Match.Name : Match → String
  | .mk n _ _ _ => n

/-- Field `Attributes`. -/
def Match.Attributes : Match → Option (List (String × String))
  | .mk _ a _ _ => a

/-- Field `Parent`. -/
def Match.Parent : Match → Option Match
  | .mk _ _ p _ => p

/-- Field `FirstChild`. -/
def Match.FirstChild : Match → Option Match
  | .mk _ _ _ f => f

/-- `getAttr` of `html.go`: the first attribute whose key is `name`. -/
def getAttr : List Attribute → String → Option Attribute
  | [], _ => none
  | a :: rest, name => if a.Key = name then some a else getAttr rest name

/-- Modelled from the spec: `strings.Split` of the Go standard library for a
one-character separator, which is how `MatchNode` calls it
(`strings.Split(attr.Val, " ")`): the pieces of `s` between consecutive
occurrences of `sep`, empty pieces included. -/
def Split (s : String) (sep : Char) : List String :=
  (s.data.splitOn sep).map String.mk

/-- The body of the loop `for k, v := range s.Attributes` of `MatchNode` for
one entry: `true` when the loop goes on, `false` when it returns `false`. -/
def attrEntryOk (attrs : List Attribute) (kv : String × String) : Bool :=
  match getAttr attrs kv.1 with
  | none => false
  | some attr =>
    if kv.2 ≠ "" then
      if attr.Val = "" ∨ (kv.1 ≠ "class" ∧ kv.2 ≠ attr.Val) then false
      else (Split attr.Val ' ').any (fun className => kv.2 = className)
    else true

/-- The attribute block of `MatchNode`. -/
def attrsOk (sel : Option (List (String × String))) (attr : Option (List Attribute)) : Bool :=
  match sel with
  | none => true
  | some entries =>
    match attr with
    | none => false
    | some attrs => entries.all (attrEntryOk attrs)

/-- `Match.MatchNode` of `html.go`. -/
def Match.MatchNode : Match → Loc → Bool
  | .mk name attributes parent firstChild, node =>
    if name ≠ "" ∧ name ≠ node.node.Data then false
    else if attrsOk attributes node.node.Attr = false then false
    else if (match parent with
        | none => true
        | some p =>
          match node.Parent with
          | none => false
          | some up => p.MatchNode up) = false then false
    else
      match firstChild with
      | none => true
      | some f =>
        match node.FirstChild with
        | none => false
        | some down => f.MatchNode down

/-- The type `Element` of `html.go`: a handle on one node of a tree. -/
abbrev Element := Loc

mutual
/-- The closure `crawler` of `selectNode`; the variable `wnode` it assigns is
passed in and returned. -/
def selectNodeCrawler (selection : Match) (ctx : List (Node × Nat)) :
    Node → Option Element → Option Element
  | .mk t d a cs, wnode =>
    if t = NodeType.ElementNode ∧ selection.MatchNode ⟨ctx, .mk t d a cs⟩ = true then
      some ⟨ctx, .mk t d a cs⟩
    else selectNodeLoop selection (.mk t d a cs) ctx 0 cs wnode
/-- The loop `for child := node.FirstChild; child != nil; child = child.NextSibling`
of the crawler of `selectNode`, at the child of index `i` of `parent`. -/
def selectNodeLoop (selection : Match) (parent : Node) (ctx : List (Node × Nat)) :
    Nat → List Node → Option Element → Option Element
  | _, [], wnode => wnode
  | i, child :: rest, wnode =>
    selectNodeLoop selection parent ctx (i + 1) rest
      (selectNodeCrawler selection ((parent, i) :: ctx) child wnode)
end

/-- `selectNode` of `html.go`. -/
def selectNode (root : Loc) (selection : Match) : Option Element :=
  selectNodeCrawler selection root.ctx root.node none

mutual
/-- The closure `crawler` of `selectAllNodes`; the slice `wnodes` it appends to
is passed in and returned. -/
def selectAllNodesCrawler (selection : Match) (ctx : List (Node × Nat)) :
    Node → List Element → List Element
  | .mk t d a cs, wnodes =>
    if t = NodeType.ElementNode ∧ selection.MatchNode ⟨ctx, .mk t d a cs⟩ = true then
      wnodes ++ [⟨ctx, .mk t d a cs⟩]
    else selectAllNodesLoop selection (.mk t d a cs) ctx 0 cs wnodes
/-- The loop over the children in the crawler of `selectAllNodes`, at the
child of index `i` of `parent`. -/
def selectAllNodesLoop (selection : Match) (parent : Node) (ctx : List (Node × Nat)) :
    Nat → List Node → List Element → List Element
  | _, [], wnodes => wnodes
  | i, child :: rest, wnodes =>
    selectAllNodesLoop selection parent ctx (i + 1) rest
      (selectAllNodesCrawler selection ((parent, i) :: ctx) child wnodes)
end

/-- `selectAllNodes` of `html.go`. -/
def selectAllNodes (root : Loc) (selection : Match) : List Element :=
  selectAllNodesCrawler selection root.ctx root.node []

/-- The type `HTMLParser` of `html.go`: the root of a parsed document, which
has no parent. -/
structure HTMLParser where
  root : Node

/-- `HTMLParser.Find` of `html.go`; `none` is the nil selection. -/
def HTMLParser.Find (p : HTMLParser) (selection : Option Match) : Option Element :=
  match selection with
  | none => none
  | some sel => selectNode ⟨[], p.root⟩ sel

/-- `HTMLParser.FindAll` of `html.go`; `none` is the nil selection. -/
def HTMLParser.FindAll (p : HTMLParser) (selection : Option Match) : List Element :=
  match selection with
  | none => []
  | some sel => selectAllNodes ⟨[], p.root⟩ sel

/-- `Element.Find` of `html.go`. -/
def Element.Find (elem : Element) (selection : Option Match) : Option Element :=
  match selection with
  | none => none
  | some sel => selectNode elem sel

/-- `Element.FindAll` of `html.go`. -/
def Element.FindAll (elem : Element) (selection : Option Match) : List Element :=
  match selection with
  | none => []
  | some sel => selectAllNodes elem sel

mutual
/-- The closure `f` of `Element.Text`; the buffer it writes to is passed in and
returned. -/
def textCrawler : Node → String → String
  | .mk t d _ cs, buf => textLoop cs (if t = NodeType.TextNode then buf ++ d else buf)
/-- The loop over the children in the closure of `Element.Text`. -/
def textLoop : List Node → String → String
  | [], buf => buf
  | c :: rest, buf => textLoop rest (textCrawler c buf)
end

/-- `Element.Text` of `html.go`. -/
def Element.Text (elem : Element) : String :=
  textCrawler elem.node ""

/-! ## Specification-side notions -/

/-- The test the two crawlers make on a node: it is an element and the
selection matches it. -/
def Match.selects (selection : Match) (l : Loc) : Bool :=
  decide (l.node.Typ = NodeType.ElementNode) && selection.MatchNode l

mutual
/-- The nodes of the subtree of a node, the node itself first, in document
(pre-order) order. -/
def subtreeLocs (ctx : List (Node × Nat)) : Node → List Loc
  | .mk t d a cs => ⟨ctx, .mk t d a cs⟩ :: childLocs (.mk t d a cs) ctx 0 cs
/-- The nodes of the subtrees of the children `i`, `i + 1`, ... of `parent`. -/
def childLocs (parent : Node) (ctx : List (Node × Nat)) : Nat → List Node → List Loc
  | _, [] => []
  | i, c :: rest => subtreeLocs ((parent, i) :: ctx) c ++ childLocs parent ctx (i + 1) rest
end

/-- The nodes of the subtree rooted at `root`, in document order. -/
def Loc.subtree (root : Loc) : List Loc :=
  subtreeLocs root.ctx root.node

/-- The proper ancestors recorded in a context, nearest first. -/
def ancestorsOf : List (Node × Nat) → List Loc
  | [] => []
  | (p, _) :: rest => ⟨rest, p⟩ :: ancestorsOf rest

mutual
/-- The outermost selected nodes of a subtree, in document order: a selected
node is listed and hides its subtree. -/
def outermost (selection : Match) (ctx : List (Node × Nat)) : Node → List Loc
  | .mk t d a cs =>
    if selection.selects ⟨ctx, .mk t d a cs⟩ = true then [⟨ctx, .mk t d a cs⟩]
    else outermostChildren selection (.mk t d a cs) ctx 0 cs
/-- The outermost selected nodes below the children `i`, `i + 1`, ... of `parent`. -/
def outermostChildren (selection : Match) (parent : Node) (ctx : List (Node × Nat)) :
    Nat → List Node → List Loc
  | _, [] => []
  | i, c :: rest =>
    outermost selection ((parent, i) :: ctx) c ++ outermostChildren selection parent ctx (i + 1) rest
end

/-- Whether `a` is a proper ancestor of `l`: `l` lies in the subtree of `a` and is not `a`. -/
def Loc.isProperAncestorOf (a l : Loc) : Bool :=
  decide (l ∈ a.subtree) && decide (a ≠ l)

/-- The claimed result of `FindAll`: the nodes of the subtree of `root`, in document order,
that are elements matched by the selection and have no proper ancestor inside that subtree
that is an element matched by the selection. -/
def findAllSpec (root : Loc) (selection : Match) : List Loc :=
  root.subtree.filter (fun l =>
    (decide (l.node.Typ = NodeType.ElementNode) && selection.MatchNode l) &&
      root.subtree.all (fun a =>
        !(a.isProperAncestorOf l &&
          (decide (a.node.Typ = NodeType.ElementNode) && selection.MatchNode a))))

/-- The filter of `findAllSpec` for a search whose root lies at depth `d`. -/
def exposed (selection : Match) (d : Nat) (l : Loc) : Bool :=
  selection.selects l &&
    ((ancestorsOf l.ctx).filter (fun a => decide (d ≤ a.ctx.length))).all
      (fun a => !selection.selects a)

/-- The child indices on the way from the root of the tree down to a node. -/
def Loc.path (l : Loc) : List Nat :=
  (l.ctx.map Prod.snd).reverse

/-! ## Sample trees -/

/-- The `body` element holding the nodes `body`. -/
def bodyOf (body : List Node) : Node :=
  .mk .ElementNode "body" none body

/-- The `html` element holding an empty `head` and the `body` element. -/
def htmlOf (body : List Node) : Node :=
  .mk .ElementNode "html" none [.mk .ElementNode "head" none [], bodyOf body]

/-- The document the parser builds around the body content `body`:
a document node holding `html`, which holds an empty `head` and `body`. -/
def parsed (body : List Node) : Node :=
  .mk .DocumentNode "" none [htmlOf body]

/-- The `html` element of a parsed document, as a node of that document. -/
def htmlLoc (body : List Node) : Loc :=
  ⟨[(parsed body, 0)], htmlOf body⟩

/-- The node `n` as the child of index `i` of the `body` element of a parsed document. -/
def inBody (body : List Node) (i : Nat) (n : Node) : Loc :=
  ⟨[(bodyOf body, i), (htmlOf body, 1), (parsed body, 0)], n⟩

/-- The body content `<p>1</p><p>2</p>`. -/
def twoParagraphs : List Node :=
  [.mk .ElementNode "p" none [.mk .TextNode "1" none []],
   .mk .ElementNode "p" none [.mk .TextNode "2" none []]]

/-- The inner container `<div class="g">inner</div>`. -/
def innerContainer : Node :=
  .mk .ElementNode "div" (some [⟨"", "class", "g"⟩]) [.mk .TextNode "inner" none []]

/-- The nested containers `<div class="g"><div class="g">inner</div></div>`. -/
def nestedContainers : Node :=
  .mk .ElementNode "div" (some [⟨"", "class", "g"⟩]) [innerContainer]

/-- The predicate `{name: "div", attributes: {class: "g"}}`. -/
def containerMatch : Match :=
  .mk "div" (some [("class", "g")]) none none

/-- The predicate with only a name. -/
def nameMatch (name : String) : Match :=
  .mk name none none none

/-- The predicate with every field unset. -/
def emptyMatch : Match :=
  .mk "" none none none

/-- The predicate `{attributes: {k: v}}` with a single attribute entry. -/
def attrMatch (k v : String) : Match :=
  .mk "" (some [(k, v)]) none none

/-- The whitespace-separated tokens of a string, in the words of the specification: the
maximal runs of characters other than space, tab, carriage return and line feed. -/
def whitespaceTokens (s : String) : List String :=
  ((s.data.splitOnP Char.isWhitespace).filter (fun t => decide (t ≠ []))).map String.mk

/-- The attributes of a node as a list, empty for the nil slice. -/
def Node.attrList (n : Node) : List Attribute :=
  n.Attr.getD []

/-- The element `<div class="cls"></div>`. -/
def classDiv (cls : String) : Node :=
  .mk .ElementNode "div" (some [⟨"", "class", cls⟩]) []

/-- The element `<p id="value"></p>`. -/
def idParagraph (value : String) : Node :=
  .mk .ElementNode "p" (some [⟨"", "id", value⟩]) []

/-- The element `<a href=""></a>`. -/
def emptyHref : Node :=
  .mk .ElementNode "a" (some [⟨"", "href", ""⟩]) []

/-- The element `<p>hello</p>`. -/
def helloParagraph : Node :=
  .mk .ElementNode "p" none [.mk .TextNode "hello" none []]

/-- Whether a node of the tree is a text node. -/
def Loc.isText (l : Loc) : Bool :=
  decide (l.node.Typ = NodeType.TextNode)

/-- The contents of the text nodes among `ls`, in the order of `ls`, concatenated. -/
def textOf (ls : List Loc) : String :=
  String.join ((ls.filter Loc.isText).map (fun l => l.node.Data))

/-- The claimed result of `Text`: the contents of the text nodes of the subtree, in
document order, concatenated. -/
def textSpec (e : Loc) : String :=
  textOf e.subtree

/-- The children `i`, `i + 1`, ... of `parent` as nodes of the tree. -/
def childrenFrom (parent : Node) (ctx : List (Node × Nat)) : Nat → List Node → List Loc
  | _, [] => []
  | i, c :: rest => ⟨(parent, i) :: ctx, c⟩ :: childrenFrom parent ctx (i + 1) rest

/-- The children of a node of the tree, in child order. -/
def Loc.children (l : Loc) : List Loc :=
  childrenFrom l.node l.ctx 0 l.node.children

/-- The element `<p>Hello <b>big</b><!--note--> world</p>`. -/
def mixedParagraph : Node :=
  .mk .ElementNode "p" none
    [.mk .TextNode "Hello " none [],
     .mk .ElementNode "b" none [.mk .TextNode "big" none []],
     .mk .CommentNode "note" none [],
     .mk .TextNode " world" none []]

/-! ## Attribute lookup and the concrete scenario -/

/-- The loop `for _, a := range elem.Node.Attr` of `Element.Attr`. -/
def attrLoop : List Attribute → String → String
  | [], _ => ""
  | a :: rest, name => if a.Key = name then a.Val else attrLoop rest name

/-- `Element.Attr` of `html.go`; ranging over the nil slice runs no iteration. -/
def Element.Attr (elem : Element) (name : String) : String :=
  attrLoop elem.node.attrList name

/-- The element `<a href="first" href="second" id="x" title="">`. -/
def duplicatedHref : Node :=
  .mk .ElementNode "a"
    (some [⟨"", "href", "first"⟩, ⟨"", "href", "second"⟩, ⟨"", "id", "x"⟩, ⟨"", "title", ""⟩]) []

/-- The heading `<h3>Title</h3>` of the result container. -/
def resultHeading : Node :=
  .mk .ElementNode "h3" none [.mk .TextNode "Title" none []]

/-- The link `<a href="http://x.test/p"><h3>Title</h3></a>` of the result container. -/
def resultLink : Node :=
  .mk .ElementNode "a" (some [⟨"", "href", "http://x.test/p"⟩]) [resultHeading]

/-- The description `<span>Desc text</span>` of the result container. -/
def resultSpan : Node :=
  .mk .ElementNode "span" none [.mk .TextNode "Desc text" none []]

/-- The block `<div><span>Desc text</span></div>` of the result container. -/
def resultBlock : Node :=
  .mk .ElementNode "div" none [resultSpan]

/-- The result container
`<div class="g"><a href="http://x.test/p"><h3>Title</h3></a><div><span>Desc text</span></div></div>`. -/
def resultContainer : Node :=
  .mk .ElementNode "div" (some [⟨"", "class", "g"⟩]) [resultLink, resultBlock]

/-- The result container as a node of the document parsed from its markup. -/
def resultLoc : Loc :=
  inBody [resultContainer] 0 resultContainer

/-- The predicate `{name: name, parent: {name: parentName}}`. -/
def nameParentMatch (name parentName : String) : Match :=
  .mk name none (some (nameMatch parentName)) none

/-! ## Nested and empty predicates -/

/-- The predicate `{name: "h3", parent: {name: "a", parent: {name: "div"}}}`, nested three
levels deep. -/
def headingInLinkInBlock : Match :=
  .mk "h3" none (some (.mk "a" none (some (nameMatch "div")) none)) none

/-- The predicate whose attribute map is present (non-nil) and has no entry. -/
def emptyAttributesMatch : Match :=
  .mk "" (some []) none none

/-! ## The engine registry (`dorkali.go`) -/

/-- A Go `error` value: the one `Use` builds for an unknown engine name with `fmt.Errorf`, or an
error of an engine. -/
inductive Error where
  | unknownEngine (engineName : String)
  | engine (message : String)
  deriving DecidableEq, Repr

/-- The interface `Engine`, as far as the registry uses it: what `Start()` returns (`none` is
the nil error), `Version()` and `Description()`. -/
structure Engine where
  Start : Option Error
  Version : String
  Description : String
  deriving DecidableEq, Repr

/-- The type `API` of `dorkali.go`. -/
structure API where
  name : String
  e : Engine
  deriving DecidableEq, Repr

/-- The package variable `engines`, a Go map from names to constructors `func() Engine`, as the
list of its entries; a key occurs at most once. -/
abbrev Registry := List (String × (Unit → Engine))

/-- The map read `f, exists := engines[name]`. -/
def mapGet : Registry → String → Option (Unit → Engine)
  | [], _ => none
  | (k, f) :: rest, name => if k = name then some f else mapGet rest name

/-- The map assignment `engines[name] = new_engine`: an earlier entry of the key is replaced. -/
def mapSet (engines : Registry) (name : String) (new_engine : Unit → Engine) : Registry :=
  (name, new_engine) :: engines.filter (fun entry => decide (entry.1 ≠ name))

/-- `RegisterEngine` of `dorkali.go`; the error is the message of the panic, after which the
map is as before. -/
def RegisterEngine (engines : Registry) (name : String) (new_engine : Unit → Engine) :
    Except String Registry :=
  if name = "version" ∨ name = "help" ∨ name = "list" then
    .error (name ++ " is a engine name? you dont use these names: \"version\", \"help\", \"list\"")
  else .ok (mapSet engines name new_engine)

/-- `Engines` of `dorkali.go`: the keys of the map (Go leaves their order unspecified). -/
def Engines (engines : Registry) : List String :=
  engines.map Prod.fst

/-- `Use` of `dorkali.go`. -/
def Use (engines : Registry) (engineName : String) : Except Error API :=
  match mapGet engines engineName with
  | none => .error (Error.unknownEngine engineName)
  | some f =>
    match (f ()).Start with
    | some err => .error err
    | none => .ok ⟨engineName, f ()⟩

/-- `UseWithoutStart` of `dorkali.go`. -/
def UseWithoutStart (engines : Registry) (engineName : String) : Except Error API :=
  match mapGet engines engineName with
  | none => .error (Error.unknownEngine engineName)
  | some f => .ok ⟨engineName, f ()⟩

/-- The three command names of `main.go` that `RegisterEngine` refuses. -/
def reservedName (name : String) : Bool :=
  decide (name = "version") || decide (name = "help") || decide (name = "list")

/-- The map after a sequence of calls of `RegisterEngine` from a given map; a call that panics
leaves the map as it was. -/
def registerAll : Registry → List (String × (Unit → Engine)) → Registry
  | engines, [] => engines
  | engines, (name, f) :: calls =>
    match RegisterEngine engines name f with
    | .ok next => registerAll next calls
    | .error _ => registerAll engines calls

/-- The registry states the program can reach: the empty map of the declaration, and the map
after a call of `RegisterEngine` that returns. -/
inductive Reachable : Registry → Prop where
  | init : Reachable []
  | register {engines next : Registry} (name : String) (f : Unit → Engine) :
      Reachable engines → RegisterEngine engines name f = .ok next → Reachable next

/-- An engine whose `Start()` returns nil. -/
def startingEngine : Unit → Engine :=
  fun _ => ⟨none, "v1", "starts"⟩

/-- An engine whose `Start()` returns an error. -/
def failingEngine : Unit → Engine :=
  fun _ => ⟨some (Error.engine "error: query is required"), "v1", "fails"⟩

/-- The registry after `RegisterEngine("google", ...)`, `RegisterEngine("help", ...)` (which
panics) and `RegisterEngine("broken", ...)`. -/
def sampleRegistry : Registry :=
  registerAll [] [("google", startingEngine), ("help", startingEngine), ("broken", failingEngine)]

/-! ## The option collector (`google/options.go`) -/

/-- Modelled from the spec: `unicode.IsSpace` of the Go standard library, which `TrimSpace`
uses: the characters with the Unicode property White_Space. -/
def isSpace (c : Char) : Bool :=
  c = '\t' || c = '\n' || c = Char.ofNat 0x0B || c = Char.ofNat 0x0C || c = '\r' || c = ' ' ||
    c = Char.ofNat 0x85 || c = Char.ofNat 0xA0 || c = Char.ofNat 0x1680 ||
    (decide (0x2000 ≤ c.toNat) && decide (c.toNat ≤ 0x200A)) ||
    c = Char.ofNat 0x2028 || c = Char.ofNat 0x2029 || c = Char.ofNat 0x202F ||
    c = Char.ofNat 0x205F || c = Char.ofNat 0x3000

/-- Modelled from the spec: `strings.TrimSpace` of the Go standard library: the string
without its leading and trailing white space. -/
def TrimSpace (s : String) : String :=
  String.mk ((s.data.dropWhile isSpace).reverse.dropWhile isSpace).reverse

/-- The first occurrence of `sep` in a character list: what stands before it and what stands
after it (`strings.Index` followed by the two slices). -/
def cutFirst (sep : List Char) : List Char → Option (List Char × List Char)
  | [] => none
  | c :: cs =>
    if sep.isPrefixOf (c :: cs) then some ([], (c :: cs).drop sep.length)
    else (cutFirst sep cs).map (fun r => (c :: r.1, r.2))

/-- The pieces of `strings.SplitN` for a non-empty separator and a count `n ≥ 0`: at most `n`
pieces, the last one holding the unsplit remainder. -/
def splitPieces (sep : List Char) : Nat → List Char → List (List Char)
  | 0, _ => []
  | 1, cs => [cs]
  | k + 2, cs =>
    match cutFirst sep cs with
    | none => [cs]
    | some (a, b) => a :: splitPieces sep (k + 1) b

/-- The pieces of `strings.SplitN` for the empty separator (`explode`): one piece per
character, at most `n` pieces, the last one holding the remainder; no piece for the empty
string. -/
def explode : Nat → List Char → List (List Char)
  | _, [] => []
  | 0, _ :: _ => []
  | 1, c :: rest => [c :: rest]
  | k + 2, c :: rest => if rest = [] then [[c]] else [c] :: explode (k + 1) rest

/-- Modelled from the spec: `strings.SplitN` of the Go standard library for a count `n ≥ 0`. -/
def SplitN (s sep : String) (n : Nat) : List String :=
  if sep = "" then (explode n s.data).map String.mk
  else (splitPieces sep.data n s.data).map String.mk

/-- The type `collector` of `options.go`. -/
structure collector where
  Seperator : String
  Collected : List (List String)
  deriving DecidableEq, Repr

/-- `collector.Set` of `options.go`: the collector after the call and the error returned
(`none` is nil). -/
def collector.Set (c : collector) (s : String) : collector × Option Error :=
  (⟨c.Seperator, c.Collected ++ [(SplitN s c.Seperator 2).map TrimSpace]⟩, none)

/-- Whether `sep` occurs in `s`. -/
def occursIn (sep s : String) : Prop :=
  ∃ k v : List Char, s.data = k ++ sep.data ++ v

/-! ## Mutation of the tree (`AppendChild`, `Clear`)

A tree is a value, so an operation that changes it returns the nodes concerned as nodes of
the tree after the change: the ancestors of the place of the change are rebuilt. -/

/-- The error of the specification for a structural operation that cannot be performed. -/
inductive TreeError where
  | InvalidOperation
  deriving DecidableEq, Repr

/-- A node with its list of children replaced. -/
def Node.setChildren (n : Node) (cs : List Node) : Node :=
  .mk n.Typ n.Data n.Attr cs

/-- The ancestors of a place of the tree after the node at that place has become `n`: each
ancestor holds the new version of the child through which the chain descends. -/
def rebuild : List (Node × Nat) → Node → List (Node × Nat)
  | [], _ => []
  | (p, i) :: rest, n =>
    (p.setChildren (p.children.set i n), i) :: rebuild rest (p.setChildren (p.children.set i n))

/-- The node at the place of `l` after it has become `n`, as a node of the tree after the
change. -/
def Loc.replace (l : Loc) (n : Node) : Loc :=
  ⟨rebuild l.ctx n, n⟩

/-- The root node of the tree that holds a place. -/
def topOf : List (Node × Nat) → Node → Node
  | [], n => n
  | (p, _) :: rest, _ => topOf rest p

/-- The root of the tree that holds `l`, reached through the `Parent` links. -/
def Loc.top (l : Loc) : Loc :=
  ⟨[], topOf l.ctx l.node⟩

/-- The outcome of `AppendChild`: the parent and the child as nodes of the tree after the
call. -/
structure Appended where
  parent : Loc
  child : Loc
  deriving DecidableEq

/-- Modelled from the spec: `html.Node.AppendChild` of the external markup library, which is
not part of the sources: appends the node of `c` as the last child of `parent`; fails with
`InvalidOperation` when `c` already has a parent or siblings.  The node `c` is a tree of its
own, distinct from the tree of `parent`. -/
def Node.AppendChild (parent c : Loc) : Except TreeError Appended :=
  if c.ctx ≠ [] then .error TreeError.InvalidOperation
  else
    .ok ⟨parent.replace (parent.node.setChildren (parent.node.children ++ [c.node])),
      ⟨(parent.node.setChildren (parent.node.children ++ [c.node]), parent.node.children.length)
          :: rebuild parent.ctx (parent.node.setChildren (parent.node.children ++ [c.node])),
        c.node⟩⟩

/-- `Element.AppendChild` of `html.go`: shorthand for `elem.Node.AppendChild(c.Node)`. -/
def Element.AppendChild (elem c : Element) : Except TreeError Appended :=
  Node.AppendChild elem c

/-- The outcome of `Clear`: the former parent as a node of the tree after the call, and the
node removed, which has no parent any more. -/
structure Cleared where
  parent : Loc
  node : Loc
  deriving DecidableEq

/-- Modelled from the spec: `html.Node.RemoveChild` of the external markup library, which is
not part of the sources: removes the child of index `i` from the child list of `parent`, the
other children keeping their order. -/
def Node.RemoveChild (parent : Loc) (i : Nat) : Loc :=
  parent.replace (parent.node.setChildren (parent.node.children.eraseIdx i))

/-- `Element.Clear` of `html.go`: `elem.Node.Parent.RemoveChild(elem.Node)`.  Modelled from the
spec: the call fails with `InvalidOperation` when the node has no parent. -/
def Element.Clear (elem : Element) : Except TreeError Cleared :=
  match elem.ctx with
  | [] => .error TreeError.InvalidOperation
  | (p, i) :: rest => .ok ⟨Node.RemoveChild ⟨rest, p⟩ i, ⟨[], elem.node⟩⟩

/-- The element `<div class="g"></div>` without children. -/
def emptyContainer : Node :=
  .mk .ElementNode "div" (some [⟨"", "class", "g"⟩]) []

/-- The first paragraph of `<p>1</p><p>2</p>` as a node of the parsed document. -/
def firstParagraphLoc : Loc :=
  inBody twoParagraphs 0 (.mk .ElementNode "p" none [.mk .TextNode "1" none []])

/-- The predicate `{parent: {name: "p"}}`: any node whose parent is a `p`. -/
def childOfParagraphMatch : Match :=
  .mk "" none (some (nameMatch "p")) none

/-- The element `<p></p>` without children. -/
def emptyParagraph : Node :=
  .mk .ElementNode "p" none []

/-- What identifies a node in a document-order listing whatever its surroundings: its depth,
its type, its data and its attributes. -/
abbrev Stamp := Nat × NodeType × String × Option (List Attribute)

/-- The stamp of a node of a tree. -/
def Loc.stamp (l : Loc) : Stamp :=
  (l.ctx.length, l.node.Typ, l.node.Data, l.node.Attr)

mutual
/-- The stamps of the nodes of a subtree whose root lies at depth `d`, in document order. -/
def stamps (d : Nat) : Node → List Stamp
  | .mk t dat a cs => (d, t, dat, a) :: stampsList (d + 1) cs
/-- The stamps of the nodes of the subtrees of a list of siblings at depth `d`. -/
def stampsList (d : Nat) : List Node → List Stamp
  | [] => []
  | c :: cs => stamps d c ++ stampsList d cs
end

/-- Whether a stamp is that of a text node. -/
def stampIsText (s : Stamp) : Bool :=
  decide (s.2.1 = NodeType.TextNode)

/-- The text read off a listing of stamps: the data of the text nodes, concatenated. -/
def stampText (sl : List Stamp) : String :=
  String.join ((sl.filter stampIsText).map (fun s => s.2.2.1))

/-- A place of a tree is coherent when every ancestor holds, at the index recorded, the next
node of the chain. -/
def ctxOk : List (Node × Nat) → Node → Prop
  | [], _ => True
  | (p, i) :: rest, n => p.children[i]? = some n ∧ ctxOk rest p

/-- Whether a node of the tree lies outside the subtree of `n`. -/
def Loc.outside (n l : Loc) : Bool :=
  decide (l ∉ n.subtree)

/-- The second paragraph of `<p>1</p><p>2</p>` as a node of the parsed document. -/
def secondParagraphLoc : Loc :=
  inBody twoParagraphs 1 (.mk .ElementNode "p" none [.mk .TextNode "2" none []])

/-! # Theorems -/

/-! ## The walks compute the outermost selected nodes -/

mutual
theorem selectAllNodesCrawler_eq (selection : Match) :
    ∀ (n : Node) (ctx : List (Node × Nat)) (wnodes : List Element),
      selectAllNodesCrawler selection ctx n wnodes = wnodes ++ outermost selection ctx n
  | .mk t d a cs, ctx, wnodes => by
    rw [selectAllNodesCrawler, outermost]
    by_cases h : selection.selects ⟨ctx, .mk t d a cs⟩ = true
    · have h2 : t = NodeType.ElementNode ∧ selection.MatchNode ⟨ctx, .mk t d a cs⟩ = true := by
        simpa [Match.selects, Node.Typ] using h
      rw [if_pos h2, if_pos h]
    · have h2 : ¬ (t = NodeType.ElementNode ∧ selection.MatchNode ⟨ctx, .mk t d a cs⟩ = true) := by
        simpa [Match.selects, Node.Typ] using h
      rw [if_neg h2, if_neg h]
      exact selectAllNodesLoop_eq selection (.mk t d a cs) cs ctx 0 wnodes
theorem selectAllNodesLoop_eq (selection : Match) (parent : Node) :
    ∀ (cs : List Node) (ctx : List (Node × Nat)) (i : Nat) (wnodes : List Element),
      selectAllNodesLoop selection parent ctx i cs wnodes
        = wnodes ++ outermostChildren selection parent ctx i cs
  | [], ctx, i, wnodes => by
    rw [selectAllNodesLoop, outermostChildren, List.append_nil]
  | c :: rest, ctx, i, wnodes => by
    rw [selectAllNodesLoop, outermostChildren,
      selectAllNodesCrawler_eq selection c ((parent, i) :: ctx) wnodes,
      selectAllNodesLoop_eq selection parent rest ctx (i + 1), List.append_assoc]
end

theorem getLast?_toList_append {α : Type} (l r : List α) :
    (l.getLast?.toList ++ r).getLast? = (l ++ r).getLast? := by
  rcases List.eq_nil_or_concat r with rfl | ⟨r0, x, rfl⟩
  · cases h : l.getLast? <;> simp [h]
  · simp [← List.append_assoc, List.getLast?_concat]

mutual
theorem selectNodeCrawler_eq (selection : Match) :
    ∀ (n : Node) (ctx : List (Node × Nat)) (wnode : Option Element),
      selectNodeCrawler selection ctx n wnode
        = (wnode.toList ++ outermost selection ctx n).getLast?
  | .mk t d a cs, ctx, wnode => by
    rw [selectNodeCrawler, outermost]
    by_cases h : selection.selects ⟨ctx, .mk t d a cs⟩ = true
    · have h2 : t = NodeType.ElementNode ∧ selection.MatchNode ⟨ctx, .mk t d a cs⟩ = true := by
        simpa [Match.selects, Node.Typ] using h
      rw [if_pos h2, if_pos h]
      simp
    · have h2 : ¬ (t = NodeType.ElementNode ∧ selection.MatchNode ⟨ctx, .mk t d a cs⟩ = true) := by
        simpa [Match.selects, Node.Typ] using h
      rw [if_neg h2, if_neg h]
      exact selectNodeLoop_eq selection (.mk t d a cs) cs ctx 0 wnode
theorem selectNodeLoop_eq (selection : Match) (parent : Node) :
    ∀ (cs : List Node) (ctx : List (Node × Nat)) (i : Nat) (wnode : Option Element),
      selectNodeLoop selection parent ctx i cs wnode
        = (wnode.toList ++ outermostChildren selection parent ctx i cs).getLast?
  | [], ctx, i, wnode => by
    rw [selectNodeLoop, outermostChildren, List.append_nil]
    cases wnode <;> rfl
  | c :: rest, ctx, i, wnode => by
    rw [selectNodeLoop, outermostChildren,
      selectNodeCrawler_eq selection c ((parent, i) :: ctx) wnode,
      selectNodeLoop_eq selection parent rest ctx (i + 1), getLast?_toList_append,
      List.append_assoc]
end

theorem selectAllNodes_eq_outermost (root : Loc) (selection : Match) :
    selectAllNodes root selection = outermost selection root.ctx root.node := by
  rw [selectAllNodes, selectAllNodesCrawler_eq, List.nil_append]

/-- The walk of `selectNode` ends on the last node that `selectAllNodes` lists. -/
theorem selectNode_eq_getLast? (root : Loc) (selection : Match) :
    selectNode root selection = (selectAllNodes root selection).getLast? := by
  rw [selectAllNodes_eq_outermost, selectNode, selectNodeCrawler_eq]
  rfl

/-! ## Positions in a subtree -/

mutual
theorem mem_subtreeLocs (l : Loc) :
    ∀ (n : Node) (ctx : List (Node × Nat)), l ∈ subtreeLocs ctx n →
      l = ⟨ctx, n⟩ ∨ ∃ ext j, l.ctx = ext ++ (n, j) :: ctx
  | .mk t d a cs, ctx, h => by
    rw [subtreeLocs, List.mem_cons] at h
    rcases h with h | h
    · exact Or.inl h
    · obtain ⟨ext, j, _, hj⟩ := mem_childLocs l (.mk t d a cs) cs ctx 0 h
      exact Or.inr ⟨ext, j, hj⟩
theorem mem_childLocs (l : Loc) (parent : Node) :
    ∀ (cs : List Node) (ctx : List (Node × Nat)) (i : Nat), l ∈ childLocs parent ctx i cs →
      ∃ ext j, i ≤ j ∧ l.ctx = ext ++ (parent, j) :: ctx
  | [], ctx, i, h => by
    rw [childLocs] at h
    exact absurd h (List.not_mem_nil l)
  | c :: rest, ctx, i, h => by
    rw [childLocs, List.mem_append] at h
    rcases h with h | h
    · rcases mem_subtreeLocs l c ((parent, i) :: ctx) h with h | ⟨ext, j, hj⟩
      · exact ⟨[], i, le_refl i, by rw [h]; rfl⟩
      · exact ⟨ext ++ [(c, j)], i, le_refl i, by rw [hj]; simp⟩
    · obtain ⟨ext, j, hij, hj⟩ := mem_childLocs l parent rest ctx (i + 1) h
      exact ⟨ext, j, by omega, hj⟩
end

theorem subtreeLocs_self (n : Node) (ctx : List (Node × Nat)) :
    (⟨ctx, n⟩ : Loc) ∈ subtreeLocs ctx n := by
  cases n
  rw [subtreeLocs]
  exact List.mem_cons_self _ _

theorem ctx_suffix_of_mem_subtreeLocs {l : Loc} {n : Node} {ctx : List (Node × Nat)}
    (h : l ∈ subtreeLocs ctx n) : ∃ ext, l.ctx = ext ++ ctx := by
  rcases mem_subtreeLocs l n ctx h with h | ⟨ext, j, hj⟩
  · exact ⟨[], by rw [h]; rfl⟩
  · exact ⟨ext ++ [(n, j)], by rw [hj]; simp⟩

theorem mem_ancestorsOf_append (ext : List (Node × Nat)) (n : Node) (j : Nat)
    (ctx : List (Node × Nat)) : (⟨ctx, n⟩ : Loc) ∈ ancestorsOf (ext ++ (n, j) :: ctx) := by
  induction ext with
  | nil => simp [ancestorsOf]
  | cons e ext ih =>
    obtain ⟨p, k⟩ := e
    simp only [List.cons_append, ancestorsOf, List.mem_cons]
    exact Or.inr ih

theorem ctx_length_lt_of_mem_ancestorsOf {a : Loc} :
    ∀ {ctx : List (Node × Nat)}, a ∈ ancestorsOf ctx → a.ctx.length < ctx.length
  | [], h => by simp [ancestorsOf] at h
  | (p, k) :: rest, h => by
    simp only [ancestorsOf, List.mem_cons] at h
    rcases h with h | h
    · rw [h]; simp
    · have := ctx_length_lt_of_mem_ancestorsOf h
      simp only [List.length_cons]
      omega

mutual
theorem nodup_subtreeLocs :
    ∀ (n : Node) (ctx : List (Node × Nat)), (subtreeLocs ctx n).Nodup
  | .mk t d a cs, ctx => by
    rw [subtreeLocs, List.nodup_cons]
    refine ⟨fun h => ?_, nodup_childLocs (.mk t d a cs) cs ctx 0⟩
    obtain ⟨ext, j, _, hj⟩ := mem_childLocs _ _ cs ctx 0 h
    have := congrArg List.length hj
    simp at this
    omega
theorem nodup_childLocs (parent : Node) :
    ∀ (cs : List Node) (ctx : List (Node × Nat)) (i : Nat), (childLocs parent ctx i cs).Nodup
  | [], ctx, i => by
    rw [childLocs]
    exact List.nodup_nil
  | c :: rest, ctx, i => by
    rw [childLocs, List.nodup_append]
    refine ⟨nodup_subtreeLocs c _, nodup_childLocs parent rest ctx (i + 1), ?_⟩
    intro l h1 h2
    obtain ⟨e1, h1⟩ := ctx_suffix_of_mem_subtreeLocs h1
    obtain ⟨e2, j, hij, h2⟩ := mem_childLocs l parent rest ctx (i + 1) h2
    rw [h1] at h2
    have hlen : e1.length = e2.length := by
      have := congrArg List.length h2
      simp at this
      omega
    have := (List.append_inj h2 hlen).2
    simp at this
    omega
end

/-! ## The outermost selected nodes as a filter of the subtree -/

theorem exposed_eq_true_iff (selection : Match) (d : Nat) (l : Loc) :
    exposed selection d l = true ↔
      selection.selects l = true ∧
        ∀ a ∈ ancestorsOf l.ctx, d ≤ a.ctx.length → selection.selects a = false := by
  simp only [exposed, Bool.and_eq_true, List.all_eq_true, List.mem_filter, decide_eq_true_eq,
    Bool.not_eq_true', and_imp]

mutual
theorem outermost_eq_filter (selection : Match) (d : Nat) :
    ∀ (n : Node) (ctx : List (Node × Nat)), d ≤ ctx.length →
      (∀ a ∈ ancestorsOf ctx, d ≤ a.ctx.length → selection.selects a = false) →
      outermost selection ctx n = (subtreeLocs ctx n).filter (exposed selection d)
  | .mk t d0 a cs, ctx, hd, hanc => by
    rw [outermost, subtreeLocs]
    by_cases h : selection.selects ⟨ctx, .mk t d0 a cs⟩ = true
    · have hself : exposed selection d ⟨ctx, .mk t d0 a cs⟩ = true :=
        (exposed_eq_true_iff _ _ _).2 ⟨h, hanc⟩
      rw [if_pos h, List.filter_cons_of_pos hself]
      have hnil : (childLocs (.mk t d0 a cs) ctx 0 cs).filter (exposed selection d) = [] := by
        rw [List.filter_eq_nil_iff]
        intro l hl hex
        obtain ⟨ext, j, _, hj⟩ := mem_childLocs l _ cs ctx 0 hl
        have hmem : (⟨ctx, .mk t d0 a cs⟩ : Loc) ∈ ancestorsOf l.ctx := by
          rw [hj]
          exact mem_ancestorsOf_append ext _ j ctx
        have := ((exposed_eq_true_iff _ _ _).1 hex).2 _ hmem hd
        rw [h] at this
        exact Bool.noConfusion this
      rw [hnil]
    · have hself : ¬ exposed selection d ⟨ctx, .mk t d0 a cs⟩ = true :=
        fun hex => h ((exposed_eq_true_iff _ _ _).1 hex).1
      rw [if_neg h, List.filter_cons_of_neg hself]
      exact outermostChildren_eq_filter selection d (.mk t d0 a cs) cs ctx 0 hd
        (by simpa using h) hanc
theorem outermostChildren_eq_filter (selection : Match) (d : Nat) (parent : Node) :
    ∀ (cs : List Node) (ctx : List (Node × Nat)) (i : Nat), d ≤ ctx.length →
      selection.selects ⟨ctx, parent⟩ = false →
      (∀ a ∈ ancestorsOf ctx, d ≤ a.ctx.length → selection.selects a = false) →
      outermostChildren selection parent ctx i cs
        = (childLocs parent ctx i cs).filter (exposed selection d)
  | [], ctx, i, _, _, _ => by
    rw [outermostChildren, childLocs, List.filter_nil]
  | c :: rest, ctx, i, hd, hp, hanc => by
    rw [outermostChildren, childLocs, List.filter_append,
      outermostChildren_eq_filter selection d parent rest ctx (i + 1) hd hp hanc,
      outermost_eq_filter selection d c ((parent, i) :: ctx)
        (by simp only [List.length_cons]; omega)
        (by
          intro a ha hda
          simp only [ancestorsOf, List.mem_cons] at ha
          rcases ha with ha | ha
          · rw [ha]; exact hp
          · exact hanc a ha hda)]
end

theorem Loc.eta (l : Loc) : (⟨l.ctx, l.node⟩ : Loc) = l := by
  cases l
  rfl

theorem mem_ancestorsOf_split {a : Loc} :
    ∀ {c : List (Node × Nat)}, a ∈ ancestorsOf c → ∃ pre j, c = pre ++ (a.node, j) :: a.ctx
  | [], h => by simp [ancestorsOf] at h
  | (p, k) :: rest, h => by
    simp only [ancestorsOf, List.mem_cons] at h
    rcases h with h | h
    · exact ⟨[], k, by rw [h]; rfl⟩
    · obtain ⟨pre, j, hj⟩ := mem_ancestorsOf_split h
      exact ⟨(p, k) :: pre, j, by rw [hj]; rfl⟩

/-- A node of the subtree of `n` other than `n` has `n` among its recorded ancestors. -/
theorem mem_ancestorsOf_of_mem_subtree {n d : Loc} (hd : d ∈ n.subtree) (hne : d ≠ n) :
    n ∈ ancestorsOf d.ctx := by
  rcases mem_subtreeLocs d n.node n.ctx hd with h | ⟨ext, j, hj⟩
  · exact absurd (h.trans (Loc.eta n)) hne
  · rw [hj, ← Loc.eta n]
    exact mem_ancestorsOf_append ext n.node j n.ctx

theorem ctx_length_le_of_mem_subtree {n d : Loc} (hd : d ∈ n.subtree) :
    n.ctx.length ≤ d.ctx.length := by
  obtain ⟨ext, h⟩ := ctx_suffix_of_mem_subtreeLocs hd
  rw [h, List.length_append]
  omega

mutual
theorem ancestor_mem_subtreeLocs (l a : Loc) :
    ∀ (n : Node) (ctx : List (Node × Nat)), l ∈ subtreeLocs ctx n → a ∈ ancestorsOf l.ctx →
      ctx.length ≤ a.ctx.length → a ∈ subtreeLocs ctx n ∧ l ∈ a.subtree
  | .mk t d0 at0 cs, ctx, hl, ha, hlen => by
    rw [subtreeLocs, List.mem_cons] at hl
    rcases hl with hl | hl
    · rw [hl] at ha
      exact absurd (ctx_length_lt_of_mem_ancestorsOf ha) (by simp only []; omega)
    · rcases ancestor_mem_childLocs l a (.mk t d0 at0 cs) cs ctx 0 hl ha hlen with h | ⟨h1, h2⟩
      · refine ⟨by rw [h]; exact subtreeLocs_self _ _, ?_⟩
        rw [h, Loc.subtree, subtreeLocs]
        exact List.mem_cons_of_mem _ hl
      · rw [subtreeLocs]
        exact ⟨List.mem_cons_of_mem _ h1, h2⟩
theorem ancestor_mem_childLocs (l a : Loc) (parent : Node) :
    ∀ (cs : List Node) (ctx : List (Node × Nat)) (i : Nat), l ∈ childLocs parent ctx i cs →
      a ∈ ancestorsOf l.ctx → ctx.length ≤ a.ctx.length →
      a = ⟨ctx, parent⟩ ∨ (a ∈ childLocs parent ctx i cs ∧ l ∈ a.subtree)
  | [], ctx, i, hl, _, _ => by
    rw [childLocs] at hl
    exact absurd hl (List.not_mem_nil l)
  | c :: rest, ctx, i, hl, ha, hlen => by
    rw [childLocs, List.mem_append] at hl
    rcases hl with hl | hl
    · by_cases hlt : ctx.length + 1 ≤ a.ctx.length
      · have := ancestor_mem_subtreeLocs l a c ((parent, i) :: ctx) hl ha
          (by simp only [List.length_cons]; omega)
        exact Or.inr ⟨by rw [childLocs]; exact List.mem_append_left _ this.1, this.2⟩
      · left
        obtain ⟨ext, he⟩ := ctx_suffix_of_mem_subtreeLocs hl
        obtain ⟨pre, j, hp⟩ := mem_ancestorsOf_split ha
        rw [he] at hp
        have hpl : ext.length = pre.length := by
          have := congrArg List.length hp
          simp at this
          omega
        have h2 := (List.append_inj hp hpl).2
        simp only [List.cons.injEq, Prod.mk.injEq] at h2
        rw [← Loc.eta a, ← h2.1.1, ← h2.2]
    · rcases ancestor_mem_childLocs l a parent rest ctx (i + 1) hl ha hlen with h | ⟨h1, h2⟩
      · exact Or.inl h
      · exact Or.inr ⟨by rw [childLocs]; exact List.mem_append_right _ h1, h2⟩
end

/-- Inside the subtree of `root`, the recorded ancestors of `l` at the depth of `root` or
below are the nodes of that subtree of which `l` is a proper descendant. -/
theorem ancestor_within_iff {root l : Loc} (hl : l ∈ root.subtree) (a : Loc) :
    (a ∈ ancestorsOf l.ctx ∧ root.ctx.length ≤ a.ctx.length) ↔
      (a ∈ root.subtree ∧ a.isProperAncestorOf l = true) := by
  simp only [Loc.isProperAncestorOf, Bool.and_eq_true, decide_eq_true_eq]
  constructor
  · rintro ⟨ha, hlen⟩
    have := ancestor_mem_subtreeLocs l a root.node root.ctx hl ha hlen
    refine ⟨this.1, this.2, fun h => ?_⟩
    have hlt := ctx_length_lt_of_mem_ancestorsOf ha
    rw [h] at hlt
    exact lt_irrefl _ hlt
  · rintro ⟨ha, hla, hne⟩
    exact ⟨mem_ancestorsOf_of_mem_subtree hla (Ne.symm hne), ctx_length_le_of_mem_subtree ha⟩

theorem findAllSpec_eq_filter_exposed (root : Loc) (selection : Match) :
    findAllSpec root selection = root.subtree.filter (exposed selection root.ctx.length) := by
  rw [findAllSpec]
  apply List.filter_congr
  intro l hl
  rw [Bool.eq_iff_iff, exposed_eq_true_iff]
  simp only [Match.selects, Bool.and_eq_true, List.all_eq_true, Bool.not_eq_true',
    Bool.and_eq_false_iff, ← Bool.not_eq_true, ← not_and_or]
  constructor
  · rintro ⟨hs, h⟩
    refine ⟨hs, fun a ha hlen hsel => ?_⟩
    have hw := (ancestor_within_iff hl a).1 ⟨ha, hlen⟩
    exact h a hw.1 ⟨hw.2, hsel⟩
  · rintro ⟨hs, h⟩
    refine ⟨hs, fun a ha hboth => ?_⟩
    have hw := (ancestor_within_iff hl a).2 ⟨ha, hboth.1⟩
    exact h a hw.1 hw.2 hboth.2

/-- The walk of `selectAllNodes` lists exactly the nodes of `findAllSpec`, in the same
order. -/
theorem selectAllNodes_eq_findAllSpec (root : Loc) (selection : Match) :
    selectAllNodes root selection = findAllSpec root selection := by
  rw [findAllSpec_eq_filter_exposed, selectAllNodes_eq_outermost,
    outermost_eq_filter selection root.ctx.length root.node root.ctx (le_refl _)
      (fun a ha hda => absurd (ctx_length_lt_of_mem_ancestorsOf ha) (by omega))]
  rfl

/-! ## Claims on `Find` and `FindAll` -/

/-- C1 (the code departs from the claim): on the document of `<p>1</p><p>2</p>` with the
predicate `{name: "p"}`, `FindAll` lists the first paragraph and then the second, while `Find`
returns the second paragraph, not the first element of `FindAll`. -/
theorem C1_find_returns_last_match :
    (HTMLParser.FindAll ⟨parsed twoParagraphs⟩ (some (nameMatch "p"))).map Loc.path
        = [[0, 1, 0], [0, 1, 1]] ∧
      (HTMLParser.FindAll ⟨parsed twoParagraphs⟩ (some (nameMatch "p"))).map Element.Text
        = ["1", "2"] ∧
      (HTMLParser.Find ⟨parsed twoParagraphs⟩ (some (nameMatch "p"))).map Loc.path
        = some [0, 1, 1] ∧
      (HTMLParser.Find ⟨parsed twoParagraphs⟩ (some (nameMatch "p"))).map Element.Text
        = some "2" ∧
      HTMLParser.Find ⟨parsed twoParagraphs⟩ (some (nameMatch "p"))
        ≠ (HTMLParser.FindAll ⟨parsed twoParagraphs⟩ (some (nameMatch "p"))).head? := by
  decide

/-- C2: for every search root and every non-nil predicate, `Find` returns an element if and
only if `FindAll` returns a non-empty list, both from an element and from a parsed document;
and when no element of the subtree is matched, `Find` returns nothing and `FindAll` returns
the empty list.  Both are total functions: neither can fail. -/
theorem C2_find_present_iff_findAll_nonempty (root : Loc) (p : HTMLParser) (selection : Match) :
    ((Element.Find root (some selection)).isSome = true
        ↔ Element.FindAll root (some selection) ≠ []) ∧
      ((HTMLParser.Find p (some selection)).isSome = true
        ↔ HTMLParser.FindAll p (some selection) ≠ []) ∧
      ((∀ l ∈ root.subtree, l.node.Typ = NodeType.ElementNode → selection.MatchNode l = false) →
        Element.Find root (some selection) = none ∧ Element.FindAll root (some selection) = []) ∧
      ((∀ l ∈ (⟨[], p.root⟩ : Loc).subtree,
          l.node.Typ = NodeType.ElementNode → selection.MatchNode l = false) →
        HTMLParser.Find p (some selection) = none ∧ HTMLParser.FindAll p (some selection) = []) := by
  have key : ∀ r : Loc, ((selectNode r selection).isSome = true ↔ selectAllNodes r selection ≠ []) := by
    intro r
    rw [selectNode_eq_getLast?]
    cases h : selectAllNodes r selection with
    | nil => simp
    | cons x xs =>
      rw [List.getLast?_eq_getLast _ (List.cons_ne_nil x xs)]
      simp
  have none : ∀ r : Loc,
      (∀ l ∈ r.subtree, l.node.Typ = NodeType.ElementNode → selection.MatchNode l = false) →
        selectNode r selection = none ∧ selectAllNodes r selection = [] := by
    intro r hr
    have hnil : selectAllNodes r selection = [] := by
      rw [selectAllNodes_eq_findAllSpec, findAllSpec_eq_filter_exposed, List.filter_eq_nil_iff]
      intro l hl hex
      have hs := ((exposed_eq_true_iff _ _ _).1 hex).1
      simp only [Match.selects, Bool.and_eq_true, decide_eq_true_eq] at hs
      rw [hr l hl hs.1] at hs
      exact Bool.noConfusion hs.2
    exact ⟨by rw [selectNode_eq_getLast?, hnil]; rfl, hnil⟩
  exact ⟨key root, key ⟨[], p.root⟩, none root, none ⟨[], p.root⟩⟩

/-- Witness of C2: no `table` element occurs in the document of `<p>1</p><p>2</p>`, so `Find`
returns nothing and `FindAll` the empty list. -/
theorem C2_find_present_iff_findAll_nonempty_witness :
    (∀ l ∈ (⟨[], parsed twoParagraphs⟩ : Loc).subtree,
        l.node.Typ = NodeType.ElementNode → (nameMatch "table").MatchNode l = false) ∧
      HTMLParser.Find ⟨parsed twoParagraphs⟩ (some (nameMatch "table")) = none ∧
      HTMLParser.FindAll ⟨parsed twoParagraphs⟩ (some (nameMatch "table")) = [] :=
  ⟨by decide,
    (C2_find_present_iff_findAll_nonempty ⟨[], parsed twoParagraphs⟩ ⟨parsed twoParagraphs⟩
      (nameMatch "table")).2.2.2 (by decide)⟩

/-- C3 (as stated, refuted): the claim lets `n` be any node.  In the document of
`<p>1</p><p>2</p>` the predicate with every field unset matches the document node, which is
not an element and so is never tested by the walk; its descendant `html` is returned by
`FindAll`. -/
theorem C3_counterexample_document_node :
    (⟨[], parsed twoParagraphs⟩ : Loc) ∈ (⟨[], parsed twoParagraphs⟩ : Loc).subtree ∧
      emptyMatch.MatchNode ⟨[], parsed twoParagraphs⟩ = true ∧
      htmlLoc twoParagraphs ∈ (⟨[], parsed twoParagraphs⟩ : Loc).subtree ∧
      htmlLoc twoParagraphs ≠ ⟨[], parsed twoParagraphs⟩ ∧
      htmlLoc twoParagraphs ∈ HTMLParser.FindAll ⟨parsed twoParagraphs⟩ (some emptyMatch) := by
  decide

/-- C3 (amended): if `n` is an element of the subtree searched and the predicate matches it,
no proper descendant of `n` appears in the result of `FindAll`; and for
`<div class="g"><div class="g">inner</div></div>` with `{name: "div", attributes: {class: "g"}}`
`FindAll` returns exactly one element, the outer `div`, searched from the document and from
the outer `div` itself. -/
theorem C3_outermost_match :
    (∀ (root : Loc) (selection : Match) (n d : Loc), n ∈ root.subtree →
        n.node.Typ = NodeType.ElementNode → selection.MatchNode n = true →
        d ∈ n.subtree → d ≠ n → d ∉ Element.FindAll root (some selection)) ∧
      HTMLParser.FindAll ⟨parsed [nestedContainers]⟩ (some containerMatch)
        = [inBody [nestedContainers] 0 nestedContainers] ∧
      Element.FindAll ⟨[], nestedContainers⟩ (some containerMatch) = [⟨[], nestedContainers⟩] := by
  refine ⟨?_, by decide, by decide⟩
  intro root selection n d hn hel hm hd hne hmem
  have hmem2 : d ∈ root.subtree.filter (exposed selection root.ctx.length) := by
    rw [← findAllSpec_eq_filter_exposed, ← selectAllNodes_eq_findAllSpec]
    exact hmem
  have hex := (exposed_eq_true_iff _ _ _).1 (List.mem_filter.1 hmem2).2
  have hsel := hex.2 n (mem_ancestorsOf_of_mem_subtree hd hne) (ctx_length_le_of_mem_subtree hn)
  simp [Match.selects, hel, hm] at hsel

/-- Witness of C3: in the document of the nested containers the outer `div` is a matched
element, and the inner `div`, its proper descendant, is not in the result of `FindAll`. -/
theorem C3_outermost_match_witness :
    inBody [nestedContainers] 0 nestedContainers ∈ (⟨[], parsed [nestedContainers]⟩ : Loc).subtree ∧
      containerMatch.MatchNode (inBody [nestedContainers] 0 nestedContainers) = true ∧
      containerMatch.MatchNode
        ⟨(nestedContainers, 0) :: (inBody [nestedContainers] 0 nestedContainers).ctx,
          innerContainer⟩ = true ∧
      (⟨(nestedContainers, 0) :: (inBody [nestedContainers] 0 nestedContainers).ctx,
          innerContainer⟩ : Loc)
        ∉ Element.FindAll ⟨[], parsed [nestedContainers]⟩ (some containerMatch) :=
  ⟨by decide, by decide, by decide,
    C3_outermost_match.1 ⟨[], parsed [nestedContainers]⟩ containerMatch
      (inBody [nestedContainers] 0 nestedContainers)
      ⟨(nestedContainers, 0) :: (inBody [nestedContainers] 0 nestedContainers).ctx, innerContainer⟩
      (by decide) (by decide) (by decide) (by decide) (by decide)⟩

/-- C4: for every search root and every non-nil predicate, `FindAll` (from a parsed document
and from an element) returns exactly `findAllSpec`: the nodes of the subtree of the root, root
included, in document order, that are elements matched by the predicate with no proper
ancestor inside that subtree that is an element matched by the predicate.  The subtree
listing and the result have no repetition, the result is a sublist of the document-order
listing, and only element nodes are returned. -/
theorem C4_findAll_lists_outermost_matches (root : Loc) (p : HTMLParser) (selection : Match) :
    HTMLParser.FindAll p (some selection) = findAllSpec ⟨[], p.root⟩ selection ∧
      Element.FindAll root (some selection) = findAllSpec root selection ∧
      root.subtree.Nodup ∧
      (Element.FindAll root (some selection)).Nodup ∧
      (Element.FindAll root (some selection)).Sublist root.subtree ∧
      (∀ e ∈ Element.FindAll root (some selection), e.node.Typ = NodeType.ElementNode) ∧
      (∀ e, e ∈ Element.FindAll root (some selection) ↔
        e ∈ root.subtree ∧ e.node.Typ = NodeType.ElementNode ∧ selection.MatchNode e = true ∧
          ∀ a ∈ root.subtree, e ∈ a.subtree → a ≠ e →
            ¬ (a.node.Typ = NodeType.ElementNode ∧ selection.MatchNode a = true)) := by
  have hroot : Element.FindAll root (some selection) = findAllSpec root selection :=
    selectAllNodes_eq_findAllSpec root selection
  have hsub : (findAllSpec root selection).Sublist root.subtree := List.filter_sublist _
  have hnodup : root.subtree.Nodup := nodup_subtreeLocs root.node root.ctx
  have hmem : ∀ e, e ∈ findAllSpec root selection ↔
      e ∈ root.subtree ∧ e.node.Typ = NodeType.ElementNode ∧ selection.MatchNode e = true ∧
        ∀ a ∈ root.subtree, e ∈ a.subtree → a ≠ e →
          ¬ (a.node.Typ = NodeType.ElementNode ∧ selection.MatchNode a = true) := by
    intro e
    simp only [findAllSpec, List.mem_filter, Bool.and_eq_true, decide_eq_true_eq,
      List.all_eq_true, Bool.not_eq_true', Loc.isProperAncestorOf, Bool.and_eq_false_iff,
      ← Bool.not_eq_true, ← not_and_or, and_assoc]
    constructor
    · rintro ⟨h1, h2, h3, h4⟩
      exact ⟨h1, h2, h3, fun a ha hea hne hsel => h4 a ha ⟨hea, hne, hsel⟩⟩
    · rintro ⟨h1, h2, h3, h4⟩
      exact ⟨h1, h2, h3, fun a ha hall => h4 a ha hall.1 hall.2.1 hall.2.2⟩
  refine ⟨selectAllNodes_eq_findAllSpec _ selection, hroot, hnodup, ?_, ?_, ?_, ?_⟩
  · rw [hroot]
    exact hsub.nodup hnodup
  · rw [hroot]
    exact hsub
  · intro e he
    rw [hroot] at he
    exact ((hmem e).1 he).2.1
  · intro e
    rw [hroot]
    exact hmem e

/-- Witness of C4: in the document of the nested containers the outer `div` is a node of the
subtree, an element, matched, and below no matched element, so `FindAll` returns it. -/
theorem C4_findAll_lists_outermost_matches_witness :
    inBody [nestedContainers] 0 nestedContainers
      ∈ Element.FindAll ⟨[], parsed [nestedContainers]⟩ (some containerMatch) :=
  ((C4_findAll_lists_outermost_matches ⟨[], parsed [nestedContainers]⟩ ⟨parsed [nestedContainers]⟩
    containerMatch).2.2.2.2.2.2 (inBody [nestedContainers] 0 nestedContainers)).2
    ⟨by decide, by decide, by decide, by decide⟩

/-! ## Attribute constraints -/

theorem getAttr_eq_some {attrs : List Attribute} {k : String} {a : Attribute}
    (h : getAttr attrs k = some a) : a ∈ attrs ∧ a.Key = k := by
  induction attrs with
  | nil => simp [getAttr] at h
  | cons b rest ih =>
    rw [getAttr] at h
    by_cases hb : b.Key = k
    · rw [if_pos hb] at h
      cases h
      exact ⟨List.mem_cons_self _ _, hb⟩
    · rw [if_neg hb] at h
      exact ⟨List.mem_cons_of_mem _ (ih h).1, (ih h).2⟩

theorem getAttr_isSome_iff (attrs : List Attribute) (k : String) :
    (∃ a, getAttr attrs k = some a) ↔ ∃ a ∈ attrs, a.Key = k := by
  constructor
  · rintro ⟨a, h⟩
    exact ⟨a, getAttr_eq_some h⟩
  · rintro ⟨a, ha, hk⟩
    induction attrs with
    | nil => exact absurd ha (List.not_mem_nil a)
    | cons b rest ih =>
      rw [getAttr]
      by_cases hb : b.Key = k
      · exact ⟨b, by rw [if_pos hb]⟩
      · rw [if_neg hb]
        rcases List.mem_cons.1 ha with h | h
        · exact absurd (h ▸ hk) hb
        · exact ih h

/-- A predicate with a single attribute entry and nothing else runs the loop body once, on
the attribute slice of the node. -/
theorem MatchNode_attrMatch (k v : String) (l : Loc) :
    (attrMatch k v).MatchNode l =
      (match l.node.Attr with
        | none => false
        | some attrs => attrEntryOk attrs (k, v)) := by
  rw [attrMatch, Match.MatchNode]
  cases h : l.node.Attr <;> simp [attrsOk]

theorem not_mem_of_mem_splitOn (sep : Char) :
    ∀ (cs t : List Char), t ∈ cs.splitOn sep → sep ∉ t
  | [], t, h => by
    rw [List.splitOn_nil, List.mem_singleton] at h
    rw [h]
    exact List.not_mem_nil sep
  | c :: cs, t, h => by
    have ih := not_mem_of_mem_splitOn sep cs
    rw [List.splitOn, List.splitOnP_cons] at h
    by_cases hc : (c == sep) = true
    · rw [if_pos hc, List.mem_cons] at h
      rcases h with h | h
      · rw [h]
        exact List.not_mem_nil sep
      · exact ih t h
    · rw [if_neg hc] at h
      cases hs : List.splitOnP (fun x => x == sep) cs with
      | nil => rw [hs] at h; simp at h
      | cons hd tl =>
        rw [hs] at h
        simp only [List.modifyHead_cons, List.mem_cons] at h
        have hhd : sep ∉ hd := ih hd (by rw [List.splitOn, hs]; exact List.mem_cons_self _ _)
        rcases h with h | h
        · rw [h, List.mem_cons, not_or]
          exact ⟨fun e => hc (by rw [e]; exact beq_self_eq_true c), hhd⟩
        · exact ih t (by rw [List.splitOn, hs]; exact List.mem_cons_of_mem _ h)

/-- The pieces of `Split` joined by the separator give the string back. -/
theorem Split_intercalate (s : String) (sep : Char) :
    [sep].intercalate ((Split s sep).map String.data) = s.data := by
  rw [Split, List.map_map]
  have : (String.data ∘ String.mk) = id := rfl
  rw [this, List.map_id, List.intercalate_splitOn]

/-- No piece of `Split` contains the separator. -/
theorem Split_no_sep (s : String) (sep : Char) : ∀ t ∈ Split s sep, sep ∉ t.data := by
  intro t ht
  rw [Split, List.mem_map] at ht
  obtain ⟨cs, hcs, rfl⟩ := ht
  exact not_mem_of_mem_splitOn sep s.data cs hcs

theorem mem_Split_self_iff (v : String) (sep : Char) : v ∈ Split v sep ↔ sep ∉ v.data := by
  constructor
  · exact Split_no_sep v sep v
  · intro h
    rw [Split, List.splitOn, List.splitOnP_eq_single]
    · simp
    · intro x hx hxs
      exact h (by rw [← beq_iff_eq.1 hxs]; exact hx)

theorem mem_Split_ne_empty {v : String} (hv : v ≠ "") (sep : Char) : v ∉ Split "" sep := by
  intro h
  have : Split "" sep = [""] := rfl
  rw [this, List.mem_singleton] at h
  exact hv h

/-- The loop body for the key `class` and a non-empty required value. -/
theorem attrEntryOk_class (attrs : List Attribute) (v : String) (hv : v ≠ "") :
    attrEntryOk attrs ("class", v) = true ↔
      ∃ a, getAttr attrs "class" = some a ∧ v ∈ Split a.Val ' ' := by
  rw [attrEntryOk]
  cases h : getAttr attrs "class" with
  | none => simp
  | some a =>
    simp only [hv, ne_eq, not_false_eq_true, ↓reduceIte, not_true_eq_false, false_and, or_false,
      Option.some.injEq, exists_eq_left']
    by_cases hval : a.Val = ""
    · rw [if_pos hval, hval]
      simp only [Bool.false_eq_true, false_iff]
      exact mem_Split_ne_empty hv ' '
    · rw [if_neg hval]
      simp [List.any_eq_true]

/-- The loop body for a key other than `class` and a non-empty required value: the value
must be equal to the required one and, because the token loop runs for every key, must not
contain a space. -/
theorem attrEntryOk_other (attrs : List Attribute) (k v : String) (hk : k ≠ "class")
    (hv : v ≠ "") :
    attrEntryOk attrs (k, v) = true ↔
      ∃ a, getAttr attrs k = some a ∧ a.Val = v ∧ ' ' ∉ v.data := by
  rw [attrEntryOk]
  cases h : getAttr attrs k with
  | none => simp
  | some a =>
    simp only [hv, hk, ne_eq, not_false_eq_true, ↓reduceIte, true_and,
      Option.some.injEq, exists_eq_left']
    by_cases hval : a.Val = v
    · have hne : ¬ a.Val = "" := by rw [hval]; exact hv
      have hcond : ¬ (a.Val = "" ∨ ¬ v = a.Val) := by
        rw [not_or]
        exact ⟨hne, fun hh => hh hval.symm⟩
      rw [if_neg hcond, hval]
      simp only [List.any_eq_true, decide_eq_true_eq, exists_eq_right', true_and]
      exact mem_Split_self_iff v ' '
    · have hcond : a.Val = "" ∨ ¬ v = a.Val := Or.inr (fun hh => hval hh.symm)
      rw [if_pos hcond]
      simp [hval]

/-- C5 (the code departs from the claim): the element `<p id="a b">` has the attribute `id`
with first value exactly `"a b"`, yet the predicate `{attributes: {id: "a b"}}` does not
match it, while `{attributes: {id: "a"}}` matches `<p id="a">`. -/
theorem C5_exact_value_with_space_rejected :
    getAttr (idParagraph "a b").attrList "id" = some ⟨"", "id", "a b"⟩ ∧
      (attrMatch "id" "a b").MatchNode ⟨[], idParagraph "a b"⟩ = false ∧
      (attrMatch "id" "a").MatchNode ⟨[], idParagraph "a"⟩ = true := by
  decide

/-- C6 (as stated, refuted): in `<div class="x&#9;g">` (a tab between `x` and `g`) the
required value `g` is one of the whitespace-separated tokens of the class attribute, yet the
predicate `{attributes: {class: "g"}}` does not match the element. -/
theorem C6_counterexample_tab_separated :
    getAttr (classDiv "x\tg").attrList "class" = some ⟨"", "class", "x\tg"⟩ ∧
      "g" ∈ whitespaceTokens "x\tg" ∧
      (attrMatch "class" "g").MatchNode ⟨[], classDiv "x\tg"⟩ = false := by
  decide

/-- C6 (amended): for every non-empty required value `v` and every node, the predicate
`{attributes: {class: v}}` matches the node if and only if the node has a class attribute and
`v` is one of the pieces of the value of the first such attribute cut at every space
character; the pieces joined by single spaces give the value back and no piece contains a
space, and only the space character separates (a tab does not). -/
theorem C6_class_matches_space_separated_piece :
    (∀ (v : String) (l : Loc), v ≠ "" →
        ((attrMatch "class" v).MatchNode l = true ↔
          ∃ a, getAttr l.node.attrList "class" = some a ∧ v ∈ Split a.Val ' ')) ∧
      (∀ s : String, [' '].intercalate ((Split s ' ').map String.data) = s.data ∧
        ∀ t ∈ Split s ' ', ' ' ∉ t.data) ∧
      Split "x\tg" ' ' = ["x\tg"] := by
  refine ⟨?_, fun s => ⟨Split_intercalate s ' ', Split_no_sep s ' '⟩, by decide⟩
  intro v l hv
  rw [MatchNode_attrMatch, Node.attrList]
  cases h : l.node.Attr with
  | none => simp [getAttr]
  | some attrs => exact attrEntryOk_class attrs v hv

/-- Witness of C6: `g` is a piece of `"x g y"`, and the predicate matches
`<div class="x g y">`. -/
theorem C6_class_matches_space_separated_piece_witness :
    "g" ≠ "" ∧ (attrMatch "class" "g").MatchNode ⟨[], classDiv "x g y"⟩ = true :=
  ⟨by decide,
    (C6_class_matches_space_separated_piece.1 "g" ⟨[], classDiv "x g y"⟩ (by decide)).2
      ⟨⟨"", "class", "x g y"⟩, by decide, by decide⟩⟩

/-- C7: the predicate `{attributes: {class: "g"}}` matches an element whose class attribute
is `"g ads"` and one whose class attribute is `"x g y"`, and does not match one whose class
attribute is `"gx"`. -/
theorem C7_class_token_examples :
    (attrMatch "class" "g").MatchNode ⟨[], classDiv "g ads"⟩ = true ∧
      (attrMatch "class" "g").MatchNode ⟨[], classDiv "x g y"⟩ = true ∧
      (attrMatch "class" "g").MatchNode ⟨[], classDiv "gx"⟩ = false := by
  decide

/-- C8: for every key `k` and every node, the predicate `{attributes: {k: ""}}` matches the
node if and only if the node has an attribute named `k`, whatever its value; in particular
`{attributes: {href: ""}}` matches `<a href="">`. -/
theorem C8_empty_value_requires_presence_only :
    (∀ (k : String) (l : Loc),
        (attrMatch k "").MatchNode l = true ↔ ∃ a ∈ l.node.attrList, a.Key = k) ∧
      (attrMatch "href" "").MatchNode ⟨[], emptyHref⟩ = true := by
  refine ⟨?_, by decide⟩
  intro k l
  rw [MatchNode_attrMatch, Node.attrList, ← getAttr_isSome_iff]
  cases h : l.node.Attr with
  | none => simp [getAttr]
  | some attrs =>
    simp only [Option.getD_some, attrEntryOk]
    cases hg : getAttr attrs k <;> simp

/-- C9 (the code departs from the claim): `MatchNode` compares the name with `Data` without
looking at the node type, so the predicate `{name: "div"}` matches the text node whose
content is `div`, and on the document of `<p>hello</p>` the predicate
`{name: "p", firstChild: {name: "hello"}}` matches the paragraph through its text child, so
that `Find` returns the paragraph. -/
theorem C9_name_matches_text_content :
    (nameMatch "div").MatchNode ⟨[], .mk .TextNode "div" none []⟩ = true ∧
      (inBody [helloParagraph] 0 helloParagraph).FirstChild
        = some ⟨(helloParagraph, 0) :: (inBody [helloParagraph] 0 helloParagraph).ctx,
            .mk .TextNode "hello" none []⟩ ∧
      (nameMatch "hello").MatchNode
        ⟨(helloParagraph, 0) :: (inBody [helloParagraph] 0 helloParagraph).ctx,
          .mk .TextNode "hello" none []⟩ = true ∧
      (Match.mk "p" none none (some (nameMatch "hello"))).MatchNode
        (inBody [helloParagraph] 0 helloParagraph) = true ∧
      HTMLParser.Find ⟨parsed [helloParagraph]⟩
          (some (.mk "p" none none (some (nameMatch "hello"))))
        = some (inBody [helloParagraph] 0 helloParagraph) := by
  decide

/-- One step of `MatchNode`: the four checks of the source in their order. -/
theorem MatchNode_mk (name : String) (attributes : Option (List (String × String)))
    (parent firstChild : Option Match) (l : Loc) :
    (Match.mk name attributes parent firstChild).MatchNode l =
      if name ≠ "" ∧ name ≠ l.node.Data then false
      else if attrsOk attributes l.node.Attr = false then false
      else if (match parent with
          | none => true
          | some p =>
            match l.Parent with
            | none => false
            | some up => p.MatchNode up) = false then false
      else
        match firstChild with
        | none => true
        | some f =>
          match l.FirstChild with
          | none => false
          | some down => f.MatchNode down := by
  cases parent <;> cases firstChild <;> rw [Match.MatchNode]

/-- When the name of a predicate is set and differs from `Data`, the node is not matched. -/
theorem MatchNode_name_ne (selection : Match) (l : Loc) (h1 : selection.Name ≠ "")
    (h2 : selection.Name ≠ l.node.Data) : selection.MatchNode l = false := by
  cases selection with
  | mk name attributes parent firstChild =>
    rw [MatchNode_mk]
    exact if_pos ⟨h1, h2⟩

/-! ## Text extraction -/

theorem join_cons (a : String) (l : List String) : String.join (a :: l) = a ++ String.join l := by
  apply String.ext
  simp [String.data_join]

theorem join_append (l r : List String) :
    String.join (l ++ r) = String.join l ++ String.join r := by
  apply String.ext
  simp [String.data_join]

theorem textOf_append (ls rs : List Loc) : textOf (ls ++ rs) = textOf ls ++ textOf rs := by
  rw [textOf, List.filter_append, List.map_append, join_append]
  rfl

theorem textOf_cons (l : Loc) (ls : List Loc) :
    textOf (l :: ls) = (if l.node.Typ = NodeType.TextNode then l.node.Data else "") ++ textOf ls := by
  by_cases ht : l.node.Typ = NodeType.TextNode
  · have hf : l.isText = true := by simpa [Loc.isText] using ht
    rw [textOf, List.filter_cons_of_pos hf, List.map_cons, join_cons, if_pos ht]
    rfl
  · have hf : ¬ l.isText = true := by simpa [Loc.isText] using ht
    rw [textOf, List.filter_cons_of_neg hf, if_neg ht, String.empty_append]
    rfl

mutual
theorem textCrawler_eq :
    ∀ (n : Node) (ctx : List (Node × Nat)) (buf : String),
      textCrawler n buf = buf ++ textOf (subtreeLocs ctx n)
  | .mk t d a cs, ctx, buf => by
    rw [textCrawler, subtreeLocs, textLoop_eq (.mk t d a cs) cs ctx 0, textOf_cons]
    simp only [Node.Typ, Node.Data]
    by_cases ht : t = NodeType.TextNode
    · rw [if_pos ht, if_pos ht, String.append_assoc]
    · rw [if_neg ht, if_neg ht, String.empty_append]
theorem textLoop_eq (parent : Node) :
    ∀ (cs : List Node) (ctx : List (Node × Nat)) (i : Nat) (buf : String),
      textLoop cs buf = buf ++ textOf (childLocs parent ctx i cs)
  | [], ctx, i, buf => by
    rw [textLoop, childLocs]
    simp [textOf, String.join]
  | c :: rest, ctx, i, buf => by
    rw [textLoop, childLocs, textCrawler_eq c ((parent, i) :: ctx) buf,
      textLoop_eq parent rest ctx (i + 1), textOf_append, String.append_assoc]
end

theorem Text_eq_textSpec (e : Element) : Element.Text e = textSpec e := by
  rw [Element.Text, textCrawler_eq e.node e.ctx "", String.empty_append]
  rfl

theorem textCrawler_buf (n : Node) (buf : String) :
    textCrawler n buf = buf ++ textCrawler n "" := by
  rw [textCrawler_eq n [] buf, textCrawler_eq n [] "", String.empty_append]

theorem textLoop_children (parent : Node) (ctx : List (Node × Nat)) :
    ∀ (cs : List Node) (i : Nat) (buf : String),
      textLoop cs buf = buf ++ String.join ((childrenFrom parent ctx i cs).map Element.Text)
  | [], i, buf => by
    rw [textLoop, childrenFrom]
    simp [String.join]
  | c :: rest, i, buf => by
    rw [textLoop, childrenFrom, List.map_cons, join_cons, textLoop_children parent ctx rest (i + 1),
      textCrawler_buf c buf, String.append_assoc]
    rfl

/-- The recursive form of `Text`: the content of the node when it is a text node, followed by
the texts of its children in child order. -/
theorem Text_eq_children (e : Element) :
    Element.Text e = (if e.node.Typ = NodeType.TextNode then e.node.Data else "")
      ++ String.join (e.children.map Element.Text) := by
  obtain ⟨ctx, n⟩ := e
  cases n with
  | mk t d a cs =>
    rw [Element.Text, textCrawler, textLoop_children (.mk t d a cs) ctx cs 0]
    simp only [Node.Typ, Node.Data, Loc.children, Node.children]
    by_cases ht : t = NodeType.TextNode
    · rw [if_pos ht, if_pos ht, String.empty_append]
    · rw [if_neg ht, if_neg ht]

/-- C10: for every element `e`, `Text e` is the concatenation, in document order, of the
contents of the text nodes of the subtree of `e` and nothing else; it is empty when the
subtree has no text node; `Text` of a text node is its content followed by the texts of its
children (so its content alone when it has no child, as in every parsed tree), and `Text` of
any other node is the concatenation of `Text` over its children in child order. -/
theorem C10_text_concatenates_text_nodes (e : Element) :
    Element.Text e = textSpec e ∧
      ((∀ l ∈ e.subtree, l.node.Typ ≠ NodeType.TextNode) → Element.Text e = "") ∧
      (e.node.Typ = NodeType.TextNode →
        Element.Text e = e.node.Data ++ String.join (e.children.map Element.Text)) ∧
      (e.node.Typ = NodeType.TextNode → e.node.children = [] → Element.Text e = e.node.Data) ∧
      (e.node.Typ ≠ NodeType.TextNode →
        Element.Text e = String.join (e.children.map Element.Text)) := by
  refine ⟨Text_eq_textSpec e, ?_, ?_, ?_, ?_⟩
  · intro h
    rw [Text_eq_textSpec, textSpec, textOf]
    have : e.subtree.filter Loc.isText = [] := by
      rw [List.filter_eq_nil_iff]
      intro l hl
      simpa [Loc.isText] using h l hl
    rw [this]
    rfl
  · intro ht
    rw [Text_eq_children, if_pos ht]
  · intro ht hc
    rw [Text_eq_children, if_pos ht, Loc.children, hc, childrenFrom]
    simp [String.join]
  · intro ht
    rw [Text_eq_children, if_neg ht, String.empty_append]

/-- Witness of C10: `<p>Hello <b>big</b><!--note--> world</p>` has the text
`Hello big world`, the concatenation of the texts of its four children; its first child is a
text node without children whose text is its content; and the comment has no text. -/
theorem C10_text_concatenates_text_nodes_witness :
    Element.Text ⟨[], mixedParagraph⟩ = "Hello big world" ∧
      Element.Text ⟨[], mixedParagraph⟩
        = String.join ((Loc.children ⟨[], mixedParagraph⟩).map Element.Text) ∧
      Element.Text ⟨[(mixedParagraph, 0)], .mk .TextNode "Hello " none []⟩ = "Hello " ∧
      Element.Text ⟨[(mixedParagraph, 2)], .mk .CommentNode "note" none []⟩ = "" :=
  ⟨(C10_text_concatenates_text_nodes ⟨[], mixedParagraph⟩).1.trans (by decide),
    (C10_text_concatenates_text_nodes ⟨[], mixedParagraph⟩).2.2.2.2 (by decide),
    (C10_text_concatenates_text_nodes
      ⟨[(mixedParagraph, 0)], .mk .TextNode "Hello " none []⟩).2.2.2.1 (by decide) (by decide),
    (C10_text_concatenates_text_nodes
      ⟨[(mixedParagraph, 2)], .mk .CommentNode "note" none []⟩).2.1 (by decide)⟩

/-! ## Attribute lookup and the concrete scenario -/

theorem attrLoop_first (pre : List Attribute) (a : Attribute) (post : List Attribute)
    (k : String) (ha : a.Key = k) (hpre : ∀ b ∈ pre, b.Key ≠ k) :
    attrLoop (pre ++ a :: post) k = a.Val := by
  induction pre with
  | nil => rw [List.nil_append, attrLoop, if_pos ha]
  | cons b pre ih =>
    rw [List.cons_append, attrLoop, if_neg (hpre b (List.mem_cons_self _ _))]
    exact ih (fun c hc => hpre c (List.mem_cons_of_mem _ hc))

theorem attrLoop_absent (attrs : List Attribute) (k : String) (h : ∀ b ∈ attrs, b.Key ≠ k) :
    attrLoop attrs k = "" := by
  induction attrs with
  | nil => rfl
  | cons b rest ih =>
    rw [attrLoop, if_neg (h b (List.mem_cons_self _ _))]
    exact ih (fun c hc => h c (List.mem_cons_of_mem _ hc))

theorem attrLoop_eq_getAttr (attrs : List Attribute) (k : String) :
    attrLoop attrs k = ((getAttr attrs k).map Attribute.Val).getD "" := by
  induction attrs with
  | nil => rfl
  | cons b rest ih =>
    rw [attrLoop, getAttr]
    by_cases hb : b.Key = k
    · rw [if_pos hb, if_pos hb]
      rfl
    · rw [if_neg hb, if_neg hb, ih]

/-- C11: for every element `e` and key `k`, `Attr e k` is the value of the first pair of the
attribute list of `e` whose key is `k` (every pair before it has another key, whatever comes
after it), and the empty string when no pair has the key `k`; `Attr` is a total function, so
it never fails.  On `<a href="first" href="second" id="x" title="">` the first `href` wins,
and a missing attribute and an empty one both give the empty string. -/
theorem C11_attr_returns_first_value (e : Element) (k : String) :
    (∀ (pre : List Attribute) (a : Attribute) (post : List Attribute),
        e.node.attrList = pre ++ a :: post → a.Key = k → (∀ b ∈ pre, b.Key ≠ k) →
        Element.Attr e k = a.Val) ∧
      ((∀ b ∈ e.node.attrList, b.Key ≠ k) → Element.Attr e k = "") ∧
      Element.Attr e k = ((e.node.attrList.find? (fun a => decide (a.Key = k))).map
        Attribute.Val).getD "" ∧
      Element.Attr ⟨[], duplicatedHref⟩ "href" = "first" ∧
      Element.Attr ⟨[], duplicatedHref⟩ "class" = "" ∧
      Element.Attr ⟨[], duplicatedHref⟩ "title" = "" := by
  refine ⟨?_, ?_, ?_, by decide, by decide, by decide⟩
  · intro pre a post hsplit ha hpre
    rw [Element.Attr, hsplit]
    exact attrLoop_first pre a post k ha hpre
  · intro h
    exact attrLoop_absent _ k h
  · rw [Element.Attr]
    generalize e.node.attrList = attrs
    induction attrs with
    | nil => rfl
    | cons b rest ih =>
      rw [attrLoop, List.find?_cons]
      by_cases hb : b.Key = k
      · simp [hb]
      · simp [hb, ih]

/-- Witness of C11: in `<a href="first" href="second" id="x" title="">` the pair `id="x"`
comes after two pairs with another key, and no pair has the key `class`. -/
theorem C11_attr_returns_first_value_witness :
    Element.Attr ⟨[], duplicatedHref⟩ "id" = "x" ∧ Element.Attr ⟨[], duplicatedHref⟩ "class" = "" :=
  ⟨(C11_attr_returns_first_value ⟨[], duplicatedHref⟩ "id").1
      [⟨"", "href", "first"⟩, ⟨"", "href", "second"⟩] ⟨"", "id", "x"⟩ [⟨"", "title", ""⟩]
      (by decide) (by decide) (by decide),
    (C11_attr_returns_first_value ⟨[], duplicatedHref⟩ "class").2.1 (by decide)⟩

/-- C15: on the document of
`<div class="g"><a href="http://x.test/p"><h3>Title</h3></a><div><span>Desc text</span></div></div>`,
`FindAll` with `{name: "div", attributes: {class: "g"}}` returns exactly one element, the
container `c`; `Find c {name: "h3", parent: {name: "a"}}` is the heading and its text is
`Title`; `Attr (Find c {name: "a"}) "href"` is `http://x.test/p`; and the text of
`Find c {name: "span", parent: {name: "div"}}` is `Desc text`. -/
theorem C15_result_container_scenario :
    HTMLParser.FindAll ⟨parsed [resultContainer]⟩ (some containerMatch) = [resultLoc] ∧
      Element.Find resultLoc (some (nameParentMatch "h3" "a"))
        = some ⟨(resultLink, 0) :: (resultContainer, 0) :: resultLoc.ctx, resultHeading⟩ ∧
      (Element.Find resultLoc (some (nameParentMatch "h3" "a"))).map Element.Text
        = some "Title" ∧
      (Element.Find resultLoc (some (nameMatch "a"))).map (fun h => Element.Attr h "href")
        = some "http://x.test/p" ∧
      (Element.Find resultLoc (some (nameParentMatch "span" "div"))).map Element.Text
        = some "Desc text" := by
  decide

/-! ## Nested and empty predicates -/

/-- The name and attribute checks alone: the predicate with `Parent` and `FirstChild` cleared. -/
theorem MatchNode_cleared (name : String) (attributes : Option (List (String × String)))
    (l : Loc) :
    (Match.mk name attributes none none).MatchNode l = true ↔
      ¬ (name ≠ "" ∧ name ≠ l.node.Data) ∧ attrsOk attributes l.node.Attr = true := by
  rw [MatchNode_mk]
  by_cases h1 : name ≠ "" ∧ name ≠ l.node.Data
  · simp [h1]
  · cases h2 : attrsOk attributes l.node.Attr <;> simp [h1]

/-- The four checks of `MatchNode` as a conjunction. -/
theorem MatchNode_iff (p : Match) (l : Loc) :
    p.MatchNode l = true ↔
      (Match.mk p.Name p.Attributes none none).MatchNode l = true ∧
        (∀ q, p.Parent = some q → ∃ up, l.Parent = some up ∧ q.MatchNode up = true) ∧
        (∀ f, p.FirstChild = some f → ∃ down, l.FirstChild = some down ∧ f.MatchNode down = true) := by
  cases p with
  | mk name attributes parent firstChild =>
    rw [MatchNode_cleared, MatchNode_mk]
    simp only [Match.Name, Match.Attributes, Match.Parent, Match.FirstChild]
    by_cases h1 : name ≠ "" ∧ name ≠ l.node.Data
    · simp [h1]
    · rw [if_neg h1]
      cases h2 : attrsOk attributes l.node.Attr
      · simp
      · cases parent with
        | none =>
          cases firstChild with
          | none => simp [h1]
          | some f => cases hd : l.FirstChild <;> simp [h1]
        | some q =>
          cases hu : l.Parent with
          | none => simp
          | some up =>
            cases hq : q.MatchNode up
            · simp [hq]
            · cases firstChild with
              | none => simp [h1, hq]
              | some f => cases hd : l.FirstChild <;> simp [h1, hq]

/-- C18: for every predicate `p` and node `n`, `MatchNode p n` holds if and only if the
predicate `p` with `Parent` and `FirstChild` cleared matches `n`, and `p.Parent` is absent or
`n` has a parent matched by `p.Parent`, and `p.FirstChild` is absent or `n` has a first child
matched by `p.FirstChild`; the nested predicates are arbitrary, so the checks recurse to any
depth.  A predicate with `Parent` set never matches a parentless node, one with `FirstChild` set
never matches a childless node, and the three-level predicate
`{name: "h3", parent: {name: "a", parent: {name: "div"}}}` matches the heading of the result
container. -/
theorem C18_parent_and_firstChild_conjunction (p : Match) (n : Loc) :
    (p.MatchNode n = true ↔
        (Match.mk p.Name p.Attributes none none).MatchNode n = true ∧
          (p.Parent = none ∨
            ∃ q up, p.Parent = some q ∧ n.Parent = some up ∧ q.MatchNode up = true) ∧
          (p.FirstChild = none ∨
            ∃ f down, p.FirstChild = some f ∧ n.FirstChild = some down ∧
              f.MatchNode down = true)) ∧
      (p.Parent ≠ none → n.ctx = [] → p.MatchNode n = false) ∧
      (p.FirstChild ≠ none → n.node.children = [] → p.MatchNode n = false) ∧
      headingInLinkInBlock.MatchNode
        ⟨(resultLink, 0) :: (resultContainer, 0) :: resultLoc.ctx, resultHeading⟩ = true := by
  have hpar : (p.Parent = none ∨
      ∃ q up, p.Parent = some q ∧ n.Parent = some up ∧ q.MatchNode up = true) ↔
      (∀ q, p.Parent = some q → ∃ up, n.Parent = some up ∧ q.MatchNode up = true) := by
    cases p.Parent <;> simp
  have hfc : (p.FirstChild = none ∨
      ∃ f down, p.FirstChild = some f ∧ n.FirstChild = some down ∧ f.MatchNode down = true) ↔
      (∀ f, p.FirstChild = some f → ∃ down, n.FirstChild = some down ∧ f.MatchNode down = true) := by
    cases p.FirstChild <;> simp
  refine ⟨?_, ?_, ?_, by decide⟩
  · rw [hpar, hfc]
    exact MatchNode_iff p n
  · intro hp hctx
    rw [Bool.eq_false_iff]
    intro hm
    obtain ⟨q, hq⟩ := Option.ne_none_iff_exists'.1 hp
    obtain ⟨up, hup, _⟩ := ((MatchNode_iff p n).1 hm).2.1 q hq
    rw [Loc.Parent, hctx] at hup
    exact Option.noConfusion hup
  · intro hp hch
    rw [Bool.eq_false_iff]
    intro hm
    obtain ⟨f, hf⟩ := Option.ne_none_iff_exists'.1 hp
    obtain ⟨down, hdown, _⟩ := ((MatchNode_iff p n).1 hm).2.2 f hf
    rw [Loc.FirstChild, hch] at hdown
    exact Option.noConfusion hdown

/-- Witness of C18: the predicate `{name: "h3", parent: {name: "a"}}` has `Parent` set, and the
heading `<h3>Title</h3>` taken alone has no parent, so it is not matched. -/
theorem C18_parent_and_firstChild_conjunction_witness :
    (nameParentMatch "h3" "a").Parent ≠ none ∧
      (nameParentMatch "h3" "a").MatchNode ⟨[], resultHeading⟩ = false :=
  ⟨fun h => Option.noConfusion h,
    (C18_parent_and_firstChild_conjunction (nameParentMatch "h3" "a") ⟨[], resultHeading⟩).2.1
      (fun h => Option.noConfusion h) rfl⟩

/-- C19 (as stated, refuted): the paragraph `<p>hello</p>` has no attribute at all (its
attribute slice is nil); the predicate whose attribute map is present and empty does not match
it, while the same predicate with the attribute map absent does. -/
theorem C19_counterexample_no_attributes :
    helloParagraph.Attr = none ∧
      emptyAttributesMatch.MatchNode ⟨[], helloParagraph⟩ = false ∧
      emptyMatch.MatchNode ⟨[], helloParagraph⟩ = true := by
  decide

/-- C19 (amended): a predicate whose attribute map is present and empty only requires the
attribute slice of the node to be non-nil: on every node whose attribute slice is non-nil it
matches exactly when the same predicate with the attribute map absent does, and it matches no
node whose attribute slice is nil.  The predicate with every field unset matches every
node. -/
theorem C19_empty_attributes_map (name : String) (parent firstChild : Option Match) (n : Loc) :
    (n.node.Attr ≠ none →
        (Match.mk name (some []) parent firstChild).MatchNode n
          = (Match.mk name none parent firstChild).MatchNode n) ∧
      (n.node.Attr = none → (Match.mk name (some []) parent firstChild).MatchNode n = false) ∧
      emptyMatch.MatchNode n = true := by
  refine ⟨?_, ?_, ?_⟩
  · intro h
    obtain ⟨attrs, hattrs⟩ := Option.ne_none_iff_exists'.1 h
    rw [MatchNode_mk, MatchNode_mk, hattrs]
    rfl
  · intro h
    rw [MatchNode_mk, h]
    by_cases h1 : name ≠ "" ∧ name ≠ n.node.Data
    · rw [if_pos h1]
    · rw [if_neg h1]
      rfl
  · rw [emptyMatch, MatchNode_mk]
    rfl

/-- Witness of C19: the container `<div class="g">` has a non-nil attribute slice, so the
predicate `{name: "div"}` with an empty attribute map matches it as `{name: "div"}` does. -/
theorem C19_empty_attributes_map_witness :
    nestedContainers.Attr ≠ none ∧
      (Match.mk "div" (some []) none none).MatchNode ⟨[], nestedContainers⟩ = true :=
  ⟨by decide,
    ((C19_empty_attributes_map "div" none none ⟨[], nestedContainers⟩).1 (by decide)).trans
      (by decide)⟩

/-! ## The engine registry -/

theorem mapGet_mapSet_self (engines : Registry) (name : String) (f : Unit → Engine) :
    mapGet (mapSet engines name f) name = some f := by
  rw [mapSet, mapGet, if_pos rfl]

theorem mapGet_filter_ne (engines : Registry) (name other : String) (h : other ≠ name) :
    mapGet (engines.filter (fun entry => decide (entry.1 ≠ name))) other = mapGet engines other := by
  induction engines with
  | nil => rfl
  | cons entry rest ih =>
    obtain ⟨k, g⟩ := entry
    simp only [ne_eq, decide_not] at ih
    by_cases hk : k = name
    · have hne : ¬ k = other := fun e => h (e.symm.trans hk)
      simp [List.filter_cons, hk, mapGet, ih, Ne.symm h]
    · simp [List.filter_cons, hk, mapGet, ih]

theorem mapGet_mapSet_other (engines : Registry) (name other : String) (f : Unit → Engine)
    (h : other ≠ name) : mapGet (mapSet engines name f) other = mapGet engines other := by
  rw [mapSet, mapGet, if_neg (fun e => h e.symm), mapGet_filter_ne engines name other h]

theorem mapGet_isSome_iff_mem_Engines (engines : Registry) (name : String) :
    (∃ f, mapGet engines name = some f) ↔ name ∈ Engines engines := by
  induction engines with
  | nil => simp [mapGet, Engines]
  | cons entry rest ih =>
    obtain ⟨k, g⟩ := entry
    rw [mapGet]
    by_cases hk : k = name
    · rw [if_pos hk]
      simp [Engines, hk]
    · rw [if_neg hk, ih]
      simp only [Engines, List.map_cons, List.mem_cons]
      constructor
      · exact fun h => Or.inr h
      · rintro (h | h)
        · exact absurd h.symm hk
        · exact h

theorem reservedName_iff (name : String) :
    reservedName name = true ↔ name = "version" ∨ name = "help" ∨ name = "list" := by
  simp [reservedName, or_assoc]

theorem RegisterEngine_reserved (engines : Registry) (name : String) (f : Unit → Engine)
    (h : reservedName name = true) : ∃ msg, RegisterEngine engines name f = .error msg := by
  rw [RegisterEngine, if_pos ((reservedName_iff name).1 h)]
  exact ⟨_, rfl⟩

theorem RegisterEngine_other (engines : Registry) (name : String) (f : Unit → Engine)
    (h : reservedName name = false) :
    RegisterEngine engines name f = .ok (mapSet engines name f) := by
  rw [RegisterEngine, if_neg]
  rw [← reservedName_iff, h]
  exact Bool.false_ne_true

/-- No reachable state of the registry has an entry for a reserved name. -/
theorem Reachable.no_reserved {engines : Registry} (hr : Reachable engines) :
    ∀ name, reservedName name = true → mapGet engines name = none := by
  induction hr with
  | init => intro name _; rfl
  | register name f _ hreg ih =>
    intro other hother
    cases hres : reservedName name with
    | true =>
      obtain ⟨msg, hmsg⟩ := RegisterEngine_reserved _ name f hres
      rw [hmsg] at hreg
      exact Except.noConfusion hreg
    | false =>
      rw [RegisterEngine_other _ name f hres] at hreg
      cases hreg
      have hne : other ≠ name := by
        intro e
        rw [e, hres] at hother
        exact Bool.noConfusion hother
      rw [mapGet_mapSet_other _ name other f hne]
      exact ih other hother

theorem Reachable.registerAll {engines : Registry} (hr : Reachable engines) :
    ∀ calls, Reachable (registerAll engines calls) := by
  intro calls
  induction calls generalizing engines with
  | nil => exact hr
  | cons call calls ih =>
    obtain ⟨name, f⟩ := call
    rw [Dorkali.registerAll]
    cases hreg : RegisterEngine engines name f with
    | ok next => exact ih (Reachable.register name f hr hreg)
    | error msg => exact ih hr

theorem registerAll_append (start : Registry) (cs ds : List (String × (Unit → Engine))) :
    registerAll start (cs ++ ds) = registerAll (registerAll start cs) ds := by
  induction cs generalizing start with
  | nil => rfl
  | cons c cs ih =>
    obtain ⟨n2, f2⟩ := c
    rw [List.cons_append, registerAll, registerAll]
    cases RegisterEngine start n2 f2 with
    | ok nx => exact ih nx
    | error _ => exact ih start

theorem Reachable.exists_calls {engines : Registry} (hr : Reachable engines) :
    ∃ calls, engines = Dorkali.registerAll [] calls := by
  induction hr with
  | init => exact ⟨[], rfl⟩
  | register name f _ hreg ih =>
    obtain ⟨calls, hcalls⟩ := ih
    refine ⟨calls ++ [(name, f)], ?_⟩
    rw [registerAll_append, ← hcalls, Dorkali.registerAll, hreg]
    rfl

/-- After a sequence of calls of `RegisterEngine`, a name has an entry exactly when it had one
before or is not reserved and is the name of one of the calls. -/
theorem mapGet_registerAll_isSome (s : String) :
    ∀ (calls : List (String × (Unit → Engine))) (start : Registry),
      (∃ f, mapGet (registerAll start calls) s = some f) ↔
        ((∃ f, mapGet start s = some f) ∨ (reservedName s = false ∧ ∃ f, (s, f) ∈ calls))
  | [], start => by simp [registerAll]
  | (n, g) :: rest, start => by
    rw [registerAll]
    cases hres : reservedName n with
    | true =>
      obtain ⟨msg, hmsg⟩ := RegisterEngine_reserved start n g hres
      rw [hmsg]
      simp only [mapGet_registerAll_isSome s rest start, List.mem_cons, Prod.mk.injEq]
      constructor
      · rintro (h | ⟨h1, f, h2⟩)
        · exact Or.inl h
        · exact Or.inr ⟨h1, f, Or.inr h2⟩
      · rintro (h | ⟨h1, f, h2 | h2⟩)
        · exact Or.inl h
        · rw [h2.1, hres] at h1
          exact Bool.noConfusion h1
        · exact Or.inr ⟨h1, f, h2⟩
    | false =>
      rw [RegisterEngine_other start n g hres]
      simp only [mapGet_registerAll_isSome s rest (mapSet start n g), List.mem_cons,
        Prod.mk.injEq]
      by_cases hsn : s = n
      · subst hsn
        rw [mapGet_mapSet_self]
        constructor
        · intro _
          exact Or.inr ⟨hres, g, Or.inl ⟨rfl, rfl⟩⟩
        · intro _
          exact Or.inl ⟨g, rfl⟩
      · rw [mapGet_mapSet_other start n s g hsn]
        constructor
        · rintro (h | ⟨h1, f, h2⟩)
          · exact Or.inl h
          · exact Or.inr ⟨h1, f, Or.inr h2⟩
        · rintro (h | ⟨h1, f, h2 | h2⟩)
          · exact Or.inl h
          · exact absurd h2.1 hsn
          · exact Or.inr ⟨h1, f, h2⟩

/-- C16: for every state of the registry and every name `s`, `UseWithoutStart s` returns an
API exactly when `s` has an entry, and then the API is named `s` and wraps the engine built by
the constructor of the entry; without an entry it returns the unknown-engine error.  `Use s`
returns an error exactly when `s` has no entry or `Start()` of the engine built returns an
error, and in the latter case it returns that error (and no API); otherwise it returns the API.
After any sequence of calls of `RegisterEngine` from the empty map, `s` has an entry exactly
when `s` is not reserved and one of the calls registered it. -/
theorem C16_use_returns_registered_engine (engines : Registry) (s : String) :
    ((∃ api, UseWithoutStart engines s = .ok api) ↔ ∃ f, mapGet engines s = some f) ∧
      (∀ f, mapGet engines s = some f → UseWithoutStart engines s = .ok ⟨s, f ()⟩) ∧
      (mapGet engines s = none → UseWithoutStart engines s = .error (Error.unknownEngine s)) ∧
      ((∃ err, Use engines s = .error err) ↔
        (mapGet engines s = none ∨
          ∃ f err, mapGet engines s = some f ∧ (f ()).Start = some err)) ∧
      (∀ f err, mapGet engines s = some f → (f ()).Start = some err →
        Use engines s = .error err) ∧
      (∀ f, mapGet engines s = some f → (f ()).Start = none → Use engines s = .ok ⟨s, f ()⟩) ∧
      (∀ calls : List (String × (Unit → Engine)),
        (∃ f, mapGet (registerAll [] calls) s = some f) ↔
          (reservedName s = false ∧ ∃ f, (s, f) ∈ calls)) := by
  refine ⟨?_, ?_, ?_, ?_, ?_, ?_, ?_⟩
  · rw [UseWithoutStart]
    cases mapGet engines s <;> simp
  · intro f hf
    rw [UseWithoutStart, hf]
  · intro h
    rw [UseWithoutStart, h]
  · rw [Use]
    cases hg : mapGet engines s with
    | none => simp
    | some f => cases hs : (f ()).Start <;> simp [hs]
  · intro f err hf hs
    rw [Use, hf]
    simp only [hs]
  · intro f hf hs
    rw [Use, hf]
    simp only [hs]
  · intro calls
    rw [mapGet_registerAll_isSome s calls []]
    simp [mapGet]

/-- Witness of C16: after registering `google` (which starts), trying to register `help` and
registering `broken` (whose `Start()` fails), `UseWithoutStart` and `Use` return the google
API, `Use "broken"` returns the error of `Start()`, and `help` and `bing` are unknown. -/
theorem C16_use_returns_registered_engine_witness :
    UseWithoutStart sampleRegistry "google" = .ok ⟨"google", startingEngine ()⟩ ∧
      Use sampleRegistry "google" = .ok ⟨"google", startingEngine ()⟩ ∧
      Use sampleRegistry "broken" = .error (Error.engine "error: query is required") ∧
      UseWithoutStart sampleRegistry "broken" = .ok ⟨"broken", failingEngine ()⟩ ∧
      UseWithoutStart sampleRegistry "help" = .error (Error.unknownEngine "help") ∧
      Use sampleRegistry "bing" = .error (Error.unknownEngine "bing") :=
  ⟨(C16_use_returns_registered_engine sampleRegistry "google").2.1 startingEngine (by rfl),
    (C16_use_returns_registered_engine sampleRegistry "google").2.2.2.2.2.1 startingEngine
      (by rfl) (by rfl),
    (C16_use_returns_registered_engine sampleRegistry "broken").2.2.2.2.1 failingEngine
      (Error.engine "error: query is required") (by rfl) (by rfl),
    (C16_use_returns_registered_engine sampleRegistry "broken").2.1 failingEngine (by rfl),
    (C16_use_returns_registered_engine sampleRegistry "help").2.2.1 (by rfl),
    by rfl⟩

/-- C20: `RegisterEngine` panics when the name is `version`, `help` or `list`, and the map is
then as before; for every other name it returns a map in which the name is bound to the given
constructor and every other name is bound as before (in `Engines()` too).  Hence in every
reachable state of the registry none of the three names has an entry, and `Engines()` does not
list them. -/
theorem C20_reserved_names_never_registered :
    (∀ (engines : Registry) (name : String) (f : Unit → Engine),
        (name = "version" ∨ name = "help" ∨ name = "list") →
        (∃ msg, RegisterEngine engines name f = .error msg) ∧
          registerAll engines [(name, f)] = engines) ∧
      (∀ (engines : Registry) (name : String) (f : Unit → Engine),
        ¬ (name = "version" ∨ name = "help" ∨ name = "list") →
        ∃ next, RegisterEngine engines name f = .ok next ∧
          registerAll engines [(name, f)] = next ∧
          mapGet next name = some f ∧ name ∈ Engines next ∧
          (∀ other, other ≠ name → mapGet next other = mapGet engines other) ∧
          (∀ other, other ≠ name → (other ∈ Engines next ↔ other ∈ Engines engines))) ∧
      (∀ engines : Registry, Reachable engines →
        ∀ name, (name = "version" ∨ name = "help" ∨ name = "list") →
          mapGet engines name = none ∧ name ∉ Engines engines) ∧
      (∀ calls : List (String × (Unit → Engine)), Reachable (registerAll [] calls)) ∧
      (∀ engines : Registry, Reachable engines → ∃ calls, engines = registerAll [] calls) := by
  refine ⟨?_, ?_, ?_, fun calls => Reachable.init.registerAll calls,
    fun engines hr => hr.exists_calls⟩
  · intro engines name f h
    obtain ⟨msg, hmsg⟩ := RegisterEngine_reserved engines name f ((reservedName_iff name).2 h)
    refine ⟨⟨msg, hmsg⟩, ?_⟩
    rw [registerAll, hmsg]
    rfl
  · intro engines name f h
    have hres : reservedName name = false := by
      rw [Bool.eq_false_iff, Ne, reservedName_iff]
      exact h
    have hreg := RegisterEngine_other engines name f hres
    refine ⟨mapSet engines name f, hreg, ?_, mapGet_mapSet_self engines name f, ?_, ?_, ?_⟩
    · rw [registerAll, hreg]
      rfl
    · exact (mapGet_isSome_iff_mem_Engines _ name).1 ⟨f, mapGet_mapSet_self engines name f⟩
    · intro other ho
      exact mapGet_mapSet_other engines name other f ho
    · intro other ho
      rw [← mapGet_isSome_iff_mem_Engines, ← mapGet_isSome_iff_mem_Engines,
        mapGet_mapSet_other engines name other f ho]
  · intro engines hr name h
    have hnone := hr.no_reserved name ((reservedName_iff name).2 h)
    refine ⟨hnone, fun hmem => ?_⟩
    obtain ⟨f, hf⟩ := (mapGet_isSome_iff_mem_Engines engines name).2 hmem
    rw [hnone] at hf
    exact Option.noConfusion hf

/-- Witness of C20: registering `help` panics, registering `google` binds it, and the sample
registry, which is reachable, lists `broken` and `google` and has no entry for `help`. -/
theorem C20_reserved_names_never_registered_witness :
    (∃ msg, RegisterEngine [] "help" startingEngine = .error msg) ∧
      (∃ next, RegisterEngine [] "google" startingEngine = .ok next ∧
        mapGet next "google" = some startingEngine) ∧
      Engines sampleRegistry = ["broken", "google"] ∧
      mapGet sampleRegistry "help" = none ∧ "help" ∉ Engines sampleRegistry :=
  ⟨(C20_reserved_names_never_registered.1 [] "help" startingEngine (by decide)).1,
    (C20_reserved_names_never_registered.2.1 [] "google" startingEngine (by decide)).imp
      (fun _ h => ⟨h.1, h.2.2.1⟩),
    by decide,
    C20_reserved_names_never_registered.2.2.1 sampleRegistry
      (C20_reserved_names_never_registered.2.2.2.1 _) "help" (by decide)⟩

/-! ## The option collector -/

theorem cutFirst_some (sep : List Char) :
    ∀ (cs a b : List Char), cutFirst sep cs = some (a, b) →
      cs = a ++ sep ++ b ∧ ∀ a2 b2 : List Char, cs = a2 ++ sep ++ b2 → a.length ≤ a2.length
  | [], a, b, h => by
    rw [cutFirst] at h
    exact Option.noConfusion h
  | c :: cs, a, b, h => by
    rw [cutFirst] at h
    by_cases hp : sep.isPrefixOf (c :: cs) = true
    · rw [if_pos hp] at h
      cases h
      rw [List.isPrefixOf_iff_prefix, List.prefix_iff_eq_append] at hp
      exact ⟨by rw [List.nil_append, hp], fun a2 b2 _ => Nat.zero_le _⟩
    · rw [if_neg hp] at h
      cases hc : cutFirst sep cs with
      | none =>
        rw [hc] at h
        exact Option.noConfusion h
      | some r =>
        obtain ⟨a0, b0⟩ := r
        rw [hc] at h
        cases h
        obtain ⟨h1, h2⟩ := cutFirst_some sep cs a0 b0 hc
        refine ⟨by rw [h1]; simp, ?_⟩
        intro a2 b2 he
        cases a2 with
        | nil =>
          exfalso
          apply hp
          rw [List.isPrefixOf_iff_prefix, he]
          exact ⟨b2, by simp⟩
        | cons x a3 =>
          simp only [List.cons_append, List.cons.injEq] at he
          have := h2 a3 b2 (by rw [he.2])
          simp only [List.length_cons]
          omega

theorem cutFirst_none (sep : List Char) (hsep : sep ≠ []) :
    ∀ cs : List Char, cutFirst sep cs = none → ¬ ∃ a b : List Char, cs = a ++ sep ++ b
  | [], _ => by
    rintro ⟨a, b, h⟩
    have := congrArg List.length h
    simp only [List.length_nil, List.length_append] at this
    exact hsep (List.length_eq_zero.1 (by omega))
  | c :: cs, h => by
    rw [cutFirst] at h
    by_cases hp : sep.isPrefixOf (c :: cs) = true
    · rw [if_pos hp] at h
      exact Option.noConfusion h
    · rw [if_neg hp] at h
      have hc : cutFirst sep cs = none := by
        cases hc : cutFirst sep cs with
        | none => rfl
        | some r =>
          rw [hc] at h
          exact Option.noConfusion h
      rintro ⟨a, b, he⟩
      cases a with
      | nil =>
        apply hp
        rw [List.isPrefixOf_iff_prefix, he]
        exact ⟨b, by simp⟩
      | cons x a3 =>
        simp only [List.cons_append, List.cons.injEq] at he
        exact cutFirst_none sep hsep cs hc ⟨a3, b, he.2⟩

theorem data_ne_nil_of_ne_empty {s : String} (h : s ≠ "") : s.data ≠ [] := by
  intro hd
  apply h
  apply String.ext
  rw [hd]

/-- `SplitN(s, sep, 2)` for a non-empty separator that occurs in `s`: the two parts around
its first occurrence. -/
theorem SplitN_two_of_occurs (s sep : String) (hsep : sep ≠ "") (h : occursIn sep s) :
    ∃ k v : List Char, s.data = k ++ sep.data ++ v ∧
      (∀ k2 v2 : List Char, s.data = k2 ++ sep.data ++ v2 → k.length ≤ k2.length) ∧
      SplitN s sep 2 = [String.mk k, String.mk v] := by
  rw [SplitN, if_neg hsep, splitPieces]
  cases hc : cutFirst sep.data s.data with
  | none => exact absurd h (cutFirst_none sep.data (data_ne_nil_of_ne_empty hsep) s.data hc)
  | some r =>
    obtain ⟨a, b⟩ := r
    obtain ⟨h1, h2⟩ := cutFirst_some sep.data s.data a b hc
    exact ⟨a, b, h1, h2, rfl⟩

/-- `SplitN(s, sep, 2)` for a non-empty separator that does not occur in `s`: `s` alone. -/
theorem SplitN_two_of_not_occurs (s sep : String) (hsep : sep ≠ "") (h : ¬ occursIn sep s) :
    SplitN s sep 2 = [s] := by
  rw [SplitN, if_neg hsep, splitPieces]
  cases hc : cutFirst sep.data s.data with
  | none => rfl
  | some r =>
    obtain ⟨a, b⟩ := r
    exact absurd ⟨a, b, (cutFirst_some sep.data s.data a b hc).1⟩ h

theorem head?_dropWhile_isSpace (cs : List Char) (c : Char)
    (h : (cs.dropWhile isSpace).head? = some c) : isSpace c = false := by
  have := List.head?_dropWhile_not isSpace cs
  rw [h] at this
  exact this

/-- What `TrimSpace` does: the string is its result between a run of white space on the left
and one on the right, and the result neither starts nor ends with white space. -/
theorem TrimSpace_spec (s : String) :
    ∃ l r : List Char, s.data = l ++ (TrimSpace s).data ++ r ∧
      (∀ c ∈ l, isSpace c = true) ∧ (∀ c ∈ r, isSpace c = true) ∧
      (∀ c, (TrimSpace s).data.head? = some c → isSpace c = false) ∧
      (∀ c, (TrimSpace s).data.getLast? = some c → isSpace c = false) := by
  have h1 : s.data = s.data.takeWhile isSpace ++ s.data.dropWhile isSpace :=
    (List.takeWhile_append_dropWhile isSpace s.data).symm
  have h2 : (s.data.dropWhile isSpace).reverse
      = (s.data.dropWhile isSpace).reverse.takeWhile isSpace
        ++ (s.data.dropWhile isSpace).reverse.dropWhile isSpace :=
    (List.takeWhile_append_dropWhile isSpace _).symm
  have h3 : s.data.dropWhile isSpace
      = ((s.data.dropWhile isSpace).reverse.dropWhile isSpace).reverse
        ++ ((s.data.dropWhile isSpace).reverse.takeWhile isSpace).reverse := by
    rw [← List.reverse_append, ← h2, List.reverse_reverse]
  have hdata : (TrimSpace s).data
      = ((s.data.dropWhile isSpace).reverse.dropWhile isSpace).reverse := rfl
  refine ⟨s.data.takeWhile isSpace,
    ((s.data.dropWhile isSpace).reverse.takeWhile isSpace).reverse, ?_, ?_, ?_, ?_, ?_⟩
  · rw [hdata, List.append_assoc, ← h3, ← h1]
  · exact fun c hc => List.mem_takeWhile_imp hc
  · exact fun c hc => List.mem_takeWhile_imp (List.mem_reverse.1 hc)
  · intro c hc
    rw [hdata] at hc
    apply head?_dropWhile_isSpace s.data c
    rw [h3, List.head?_append, hc]
    rfl
  · intro c hc
    rw [hdata, List.getLast?_reverse] at hc
    exact head?_dropWhile_isSpace _ c hc

/-- C17 (as stated, refuted): a collector whose separator is the empty string is a collector
too.  The empty string occurs in every input, yet `Set ""` appends an entry with no component
at all, and `Set "ab"` appends `["a", "b"]`, whereas cutting `"ab"` at the first occurrence of
the empty separator gives `""` and `"ab"`. -/
theorem C17_counterexample_empty_separator :
    occursIn "" "" ∧ occursIn "" "ab" ∧
      ((collector.mk "" []).Set "").1.Collected = [[]] ∧
      ((collector.mk "" []).Set "ab").1.Collected = [["a", "b"]] ∧
      ("ab".data = [] ++ "".data ++ "ab".data ∧ [TrimSpace "", TrimSpace "ab"] ≠ ["a", "b"]) := by
  refine ⟨⟨[], [], rfl⟩, ⟨[], "ab".data, rfl⟩, by decide, by decide, rfl, by decide⟩

/-- C17 (amended): for every collector and every input `s`, `Set s` returns no error, keeps
the separator and appends exactly one entry to `Collected`, leaving the earlier entries as they
were and in order.  When the separator is not empty and occurs in `s`, the entry is the pair
of the parts of `s` before and after the first occurrence of the separator, each with its
surrounding white space trimmed; when the separator is not empty and does not occur in `s`,
the entry has the single component `s`, trimmed.  So `KEY1: VALUE1` with `:` gives
`["KEY1", "VALUE1"]`, `KEY=VALUE` with `=` gives `["KEY", "VALUE"]`, and `a=b=c` gives
`["a", "b=c"]`. -/
theorem C17_set_appends_one_entry (c : collector) (s : String) :
    (c.Set s).2 = none ∧ (c.Set s).1.Seperator = c.Seperator ∧
      (∃ entry, (c.Set s).1.Collected = c.Collected ++ [entry] ∧
        (c.Seperator ≠ "" → occursIn c.Seperator s →
          ∃ k v : List Char, s.data = k ++ c.Seperator.data ++ v ∧
            (∀ k2 v2 : List Char, s.data = k2 ++ c.Seperator.data ++ v2 →
              k.length ≤ k2.length) ∧
            entry = [TrimSpace (String.mk k), TrimSpace (String.mk v)]) ∧
        (c.Seperator ≠ "" → ¬ occursIn c.Seperator s → entry = [TrimSpace s])) ∧
      ((collector.mk ":" []).Set "KEY1: VALUE1").1.Collected = [["KEY1", "VALUE1"]] ∧
      ((collector.mk "=" [["K0", "V0"]]).Set "KEY=VALUE").1.Collected
        = [["K0", "V0"], ["KEY", "VALUE"]] ∧
      ((collector.mk "=" []).Set " a = b=c ").1.Collected = [["a", "b=c"]] ∧
      ((collector.mk "=" []).Set " flag ").1.Collected = [["flag"]] := by
  refine ⟨rfl, rfl, ⟨_, rfl, ?_, ?_⟩, by decide, by decide, by decide, by decide⟩
  · intro hsep hocc
    obtain ⟨k, v, h1, h2, h3⟩ := SplitN_two_of_occurs s c.Seperator hsep hocc
    exact ⟨k, v, h1, h2, by rw [h3]; rfl⟩
  · intro hsep hocc
    rw [SplitN_two_of_not_occurs s c.Seperator hsep hocc]
    rfl

/-- Witness of C17: `=` is not empty and occurs in `a=b=c`; the entry appended is
`["a", "b=c"]`, cut at the first `=`. -/
theorem C17_set_appends_one_entry_witness :
    occursIn "=" "a=b=c" ∧
      ∃ entry, ((collector.mk "=" []).Set "a=b=c").1.Collected = [] ++ [entry] ∧
        ∃ k v : List Char, "a=b=c".data = k ++ "=".data ++ v ∧
          entry = [TrimSpace (String.mk k), TrimSpace (String.mk v)] :=
  ⟨⟨"a".data, "b=c".data, rfl⟩,
    (C17_set_appends_one_entry (collector.mk "=" []) "a=b=c").2.2.1.imp
      (fun _ h => ⟨h.1,
        (h.2.1 (by decide) ⟨"a".data, "b=c".data, rfl⟩).imp
          (fun _ hk => hk.imp (fun _ hv => ⟨hv.1, hv.2.2⟩))⟩)⟩

/-! ## Mutation of the tree -/

theorem rebuild_length (n : Node) :
    ∀ ctx : List (Node × Nat), (rebuild ctx n).length = ctx.length
  | [] => rfl
  | (p, i) :: rest => by
    rw [rebuild, List.length_cons, List.length_cons, rebuild_length _ rest]
termination_by ctx => ctx.length

/-- The last child of a node lies in the subtree of the node. -/
theorem mem_childLocs_of_split (parent : Node) (ctx : List (Node × Nat)) (c : Node)
    (post : List Node) :
    ∀ (pre : List Node) (i : Nat),
      (⟨(parent, i + pre.length) :: ctx, c⟩ : Loc) ∈ childLocs parent ctx i (pre ++ c :: post)
  | [], i => by
    rw [List.nil_append, childLocs, List.length_nil, Nat.add_zero]
    exact List.mem_append_left _ (subtreeLocs_self c _)
  | x :: pre, i => by
    rw [List.cons_append, childLocs, List.length_cons]
    have := mem_childLocs_of_split parent ctx c post pre (i + 1)
    rw [show i + 1 + pre.length = i + (pre.length + 1) by omega] at this
    exact List.mem_append_right _ this

/-- A predicate that matches a node of a tree taken alone still matches it when the tree is
hung below further ancestors: the checks only require links to be present. -/
theorem MatchNode_mono :
    ∀ (q : Match) (ext : List (Node × Nat)) (x : Node) (ctx : List (Node × Nat)),
      q.MatchNode ⟨ext, x⟩ = true → q.MatchNode ⟨ext ++ ctx, x⟩ = true
  | .mk name attributes parent firstChild, ext, x, ctx, h => by
    rw [MatchNode_iff] at h ⊢
    obtain ⟨h1, h2, h3⟩ := h
    refine ⟨?_, ?_, ?_⟩
    · rw [MatchNode_cleared] at h1 ⊢
      exact h1
    · intro q hq
      obtain ⟨up, hup, hm⟩ := h2 q hq
      cases ext with
      | nil => exact absurd hup (by simp [Loc.Parent])
      | cons e ext2 =>
        obtain ⟨p, i⟩ := e
        simp only [Loc.Parent, Option.some.injEq] at hup
        subst hup
        have hlt : sizeOf q < sizeOf (Match.mk name attributes parent firstChild) := by
          simp only [Match.Parent] at hq
          subst hq
          simp only [Match.mk.sizeOf_spec, Option.some.sizeOf_spec]
          omega
        exact ⟨⟨ext2 ++ ctx, p⟩, rfl, MatchNode_mono q ext2 p ctx hm⟩
    · intro f hf
      obtain ⟨down, hdown, hm⟩ := h3 f hf
      cases hc : x.children with
      | nil => simp [Loc.FirstChild, hc] at hdown
      | cons c cs =>
        simp only [Loc.FirstChild, hc, Option.some.injEq] at hdown
        subst hdown
        have hlt : sizeOf f < sizeOf (Match.mk name attributes parent firstChild) := by
          simp only [Match.FirstChild] at hf
          subst hf
          simp only [Match.mk.sizeOf_spec, Option.some.sizeOf_spec]
          omega
        refine ⟨⟨(x, 0) :: (ext ++ ctx), c⟩, by simp [Loc.FirstChild, hc], ?_⟩
        exact MatchNode_mono f ((x, 0) :: ext) c ctx hm
termination_by q => sizeOf q

theorem Loc.Parent_eq_none_iff (l : Loc) : l.Parent = none ↔ l.ctx = [] := by
  rw [Loc.Parent]
  cases l.ctx with
  | nil => simp
  | cons e rest => obtain ⟨p, i⟩ := e; simp

/-- The node appended is found by a search from the parent when it is an element that the
predicate matches and the parent itself is not selected. -/
theorem appended_mem_selectAllNodes (ctx : List (Node × Nat)) (n c : Node) (q : Match)
    (hsel : q.selects ⟨(n.setChildren (n.children ++ [c]), n.children.length) :: ctx, c⟩ = true)
    (hpar : q.selects ⟨ctx, n.setChildren (n.children ++ [c])⟩ = false) :
    (⟨(n.setChildren (n.children ++ [c]), n.children.length) :: ctx, c⟩ : Loc)
      ∈ selectAllNodes ⟨ctx, n.setChildren (n.children ++ [c])⟩ q := by
  rw [selectAllNodes_eq_findAllSpec, findAllSpec_eq_filter_exposed, List.mem_filter,
    exposed_eq_true_iff]
  refine ⟨?_, hsel, ?_⟩
  · rw [Loc.subtree, Node.setChildren, subtreeLocs]
    apply List.mem_cons_of_mem
    have := mem_childLocs_of_split (Node.mk n.Typ n.Data n.Attr (n.children ++ [c])) ctx c []
      n.children 0
    rw [Nat.zero_add] at this
    exact this
  · intro a ha hlen
    simp only [ancestorsOf, List.mem_cons] at ha
    rcases ha with ha | ha
    · rw [ha]
      exact hpar
    · exact absurd (ctx_length_lt_of_mem_ancestorsOf ha) (by simp only [] at hlen ⊢; omega)

/-- C12 (as stated, refuted): appending `<div class="g">inner</div>` to the element
`<div class="g"></div>` gives the nested containers; the predicate
`{name: "div", attributes: {class: "g"}}` matches the child before and after the call, yet
`FindAll` from the parent returns the parent alone.  And appending the text node `x` to
`<p></p>`: the predicate `{parent: {name: "p"}}` matches the child, which is not an element,
and `FindAll` from the parent returns nothing. -/
theorem C12_counterexample_parent_hides_child :
    Element.AppendChild ⟨[], emptyContainer⟩ ⟨[], innerContainer⟩
        = .ok ⟨⟨[], nestedContainers⟩, ⟨[(nestedContainers, 0)], innerContainer⟩⟩ ∧
      containerMatch.MatchNode ⟨[], innerContainer⟩ = true ∧
      containerMatch.MatchNode ⟨[(nestedContainers, 0)], innerContainer⟩ = true ∧
      Element.FindAll ⟨[], nestedContainers⟩ (some containerMatch) = [⟨[], nestedContainers⟩] ∧
      (⟨[(nestedContainers, 0)], innerContainer⟩ : Loc)
        ∉ Element.FindAll ⟨[], nestedContainers⟩ (some containerMatch) ∧
      Element.AppendChild ⟨[], emptyParagraph⟩ ⟨[], .mk .TextNode "x" none []⟩
        = .ok ⟨⟨[], emptyParagraph.setChildren [.mk .TextNode "x" none []]⟩,
            ⟨[(emptyParagraph.setChildren [.mk .TextNode "x" none []], 0)],
              .mk .TextNode "x" none []⟩⟩ ∧
      childOfParagraphMatch.MatchNode
        ⟨[(emptyParagraph.setChildren [.mk .TextNode "x" none []], 0)],
          .mk .TextNode "x" none []⟩ = true ∧
      Element.FindAll ⟨[], emptyParagraph.setChildren [.mk .TextNode "x" none []]⟩
        (some childOfParagraphMatch) = [] := by
  refine ⟨rfl, by decide, by decide, by decide, by decide, rfl, by decide, by decide⟩

/-- C12 (amended): for every node `parent` and every parentless node `child` (a tree of its
own), `AppendChild parent child` succeeds; afterwards the parent link of the child is the
parent, the children of the parent are the former ones followed by the child, and a predicate
that matched the child before the call still matches it.  For every predicate `q` that matches
the child, if the child is an element and `q` does not select the parent itself, the result of
`FindAll` from the parent includes the child.  `AppendChild` fails with `InvalidOperation` when
the child has a parent. -/
theorem C12_appended_child_found (parent child : Element) (q : Match) :
    (child.Parent = none →
        ∃ res, Element.AppendChild parent child = .ok res ∧
          res.child.Parent = some res.parent ∧ res.child.node = child.node ∧
          res.parent.node.children = parent.node.children ++ [child.node] ∧
          (q.MatchNode child = true → q.MatchNode res.child = true) ∧
          (res.child.node.Typ = NodeType.ElementNode → q.MatchNode res.child = true →
            ¬ (res.parent.node.Typ = NodeType.ElementNode ∧ q.MatchNode res.parent = true) →
            res.child ∈ Element.FindAll res.parent (some q))) ∧
      (child.Parent ≠ none →
        Element.AppendChild parent child = .error TreeError.InvalidOperation) := by
  constructor
  · intro hp
    have hctx : child.ctx = [] := (Loc.Parent_eq_none_iff child).1 hp
    refine ⟨⟨parent.replace (parent.node.setChildren (parent.node.children ++ [child.node])),
        ⟨(parent.node.setChildren (parent.node.children ++ [child.node]),
            parent.node.children.length)
          :: rebuild parent.ctx (parent.node.setChildren (parent.node.children ++ [child.node])),
          child.node⟩⟩,
      by rw [Element.AppendChild, Node.AppendChild, if_neg (fun h => h hctx)],
      rfl, rfl, rfl, ?_, ?_⟩
    · intro hm
      have := MatchNode_mono q [] child.node
        ((parent.node.setChildren (parent.node.children ++ [child.node]),
            parent.node.children.length)
          :: rebuild parent.ctx (parent.node.setChildren (parent.node.children ++ [child.node])))
        (by rw [← hctx]; exact hm)
      exact this
    · intro hel hm hnot
      apply appended_mem_selectAllNodes
      · simp only [Match.selects, Bool.and_eq_true, decide_eq_true_eq]
        exact ⟨hel, hm⟩
      · rw [Bool.eq_false_iff]
        intro hs
        simp only [Match.selects, Bool.and_eq_true, decide_eq_true_eq] at hs
        exact hnot hs
  · intro hp
    have hctx : child.ctx ≠ [] := fun h => hp ((Loc.Parent_eq_none_iff child).2 h)
    rw [Element.AppendChild, Node.AppendChild, if_pos hctx]

/-- Witness of C12: appending the paragraph `<p>hello</p>` to `<div class="g"></div>`: the
predicate `{name: "p"}` matches the child and not the parent, and `FindAll` from the parent
includes the child. -/
theorem C12_appended_child_found_witness :
    ∃ res, Element.AppendChild ⟨[], emptyContainer⟩ ⟨[], helloParagraph⟩ = .ok res ∧
      res.child.Parent = some res.parent ∧
      res.child ∈ Element.FindAll res.parent (some (nameMatch "p")) := by
  obtain ⟨res, hres, hpar, _, _, _, hfind⟩ :=
    (C12_appended_child_found ⟨[], emptyContainer⟩ ⟨[], helloParagraph⟩ (nameMatch "p")).1 rfl
  have hval : Element.AppendChild ⟨[], emptyContainer⟩ ⟨[], helloParagraph⟩
      = .ok ⟨⟨[], emptyContainer.setChildren [helloParagraph]⟩,
          ⟨[(emptyContainer.setChildren [helloParagraph], 0)], helloParagraph⟩⟩ := rfl
  rw [hval] at hres
  cases hres
  exact ⟨_, hval, hpar, hfind (by decide) (by decide) (by decide)⟩

/-- C13: `Clear` on a node that has no parent fails with `InvalidOperation` (no tree results
from the call); it succeeds on a node that has a parent, after which the node has no parent,
so that a second `Clear` of the node fails with `InvalidOperation`. -/
theorem C13_clear_without_parent_fails (elem : Element) :
    (elem.Parent = none → Element.Clear elem = .error TreeError.InvalidOperation) ∧
      (elem.Parent ≠ none → ∃ res, Element.Clear elem = .ok res) ∧
      (∀ res, Element.Clear elem = .ok res →
        res.node.node = elem.node ∧ res.node.Parent = none ∧
          Element.Clear res.node = .error TreeError.InvalidOperation) := by
  refine ⟨?_, ?_, ?_⟩
  · intro h
    rw [Element.Clear, (Loc.Parent_eq_none_iff elem).1 h]
  · intro h
    rw [Element.Clear]
    cases hc : elem.ctx with
    | nil => exact absurd ((Loc.Parent_eq_none_iff elem).2 hc) h
    | cons e rest => obtain ⟨p, i⟩ := e; exact ⟨_, rfl⟩
  · intro res h
    rw [Element.Clear] at h
    cases hc : elem.ctx with
    | nil =>
      rw [hc] at h
      exact Except.noConfusion h
    | cons e rest =>
      obtain ⟨p, i⟩ := e
      rw [hc] at h
      cases h
      exact ⟨rfl, rfl, rfl⟩

/-- Witness of C13: the first paragraph of `<p>1</p><p>2</p>` has a parent, so `Clear`
succeeds once, and the second `Clear` of the same node fails; `Clear` of the document node
fails. -/
theorem C13_clear_without_parent_fails_witness :
    (∃ res, Element.Clear firstParagraphLoc = .ok res ∧
        Element.Clear res.node = .error TreeError.InvalidOperation) ∧
      Element.Clear ⟨[], parsed twoParagraphs⟩ = .error TreeError.InvalidOperation :=
  ⟨((C13_clear_without_parent_fails firstParagraphLoc).2.1
      (fun h => Option.noConfusion h)).imp
      (fun res h => ⟨h, ((C13_clear_without_parent_fails firstParagraphLoc).2.2 res h).2.2⟩),
    (C13_clear_without_parent_fails ⟨[], parsed twoParagraphs⟩).1 rfl⟩

mutual
theorem stamps_subtreeLocs :
    ∀ (n : Node) (ctx : List (Node × Nat)),
      (subtreeLocs ctx n).map Loc.stamp = stamps ctx.length n
  | .mk t d a cs, ctx => by
    rw [subtreeLocs, List.map_cons, stamps, stamps_childLocs (.mk t d a cs) cs ctx 0]
    rfl
theorem stamps_childLocs (parent : Node) :
    ∀ (cs : List Node) (ctx : List (Node × Nat)) (i : Nat),
      (childLocs parent ctx i cs).map Loc.stamp = stampsList (ctx.length + 1) cs
  | [], ctx, i => by
    rw [childLocs, stampsList]
    rfl
  | c :: rest, ctx, i => by
    rw [childLocs, List.map_append, stampsList, stamps_subtreeLocs c ((parent, i) :: ctx),
      stamps_childLocs parent rest ctx (i + 1)]
    rfl
end

theorem stampsList_append (d : Nat) (pre post : List Node) :
    stampsList d (pre ++ post) = stampsList d pre ++ stampsList d post := by
  induction pre with
  | nil => rw [List.nil_append, stampsList, List.nil_append]
  | cons c pre ih => rw [List.cons_append, stampsList, stampsList, ih, List.append_assoc]

theorem childLocs_append (parent : Node) (ctx : List (Node × Nat)) (post : List Node) :
    ∀ (pre : List Node) (i : Nat),
      childLocs parent ctx i (pre ++ post)
        = childLocs parent ctx i pre ++ childLocs parent ctx (i + pre.length) post
  | [], i => by
    rw [List.nil_append, childLocs, List.nil_append, List.length_nil, Nat.add_zero]
  | c :: pre, i => by
    rw [List.cons_append, childLocs, childLocs, childLocs_append parent ctx post pre (i + 1),
      List.append_assoc, List.length_cons]
    rw [show i + 1 + pre.length = i + (pre.length + 1) by omega]

/-- A list splits around the element at a given index. -/
theorem split_of_getElem? {α : Type} :
    ∀ (l : List α) (i : Nat) (x : α), l[i]? = some x →
      ∃ pre post, l = pre ++ x :: post ∧ pre.length = i
  | [], i, x, h => by simp at h
  | y :: l, 0, x, h => by
    simp only [List.getElem?_cons_zero, Option.some.injEq] at h
    exact ⟨[], l, by rw [h]; rfl, rfl⟩
  | y :: l, i + 1, x, h => by
    simp only [List.getElem?_cons_succ] at h
    obtain ⟨pre, post, h1, h2⟩ := split_of_getElem? l i x h
    exact ⟨y :: pre, post, by rw [h1]; rfl, by rw [List.length_cons, h2]⟩

theorem eraseIdx_split {α : Type} (x : α) (post : List α) :
    ∀ pre : List α, (pre ++ x :: post).eraseIdx pre.length = pre ++ post
  | [] => rfl
  | y :: pre => by
    rw [List.cons_append, List.length_cons, List.eraseIdx_cons_succ, eraseIdx_split x post pre]
    rfl

theorem set_split {α : Type} (x y : α) (post : List α) :
    ∀ pre : List α, (pre ++ x :: post).set pre.length y = pre ++ y :: post
  | [] => rfl
  | z :: pre => by
    rw [List.cons_append, List.length_cons, List.set_cons_succ, set_split x y post pre]
    rfl

theorem getElem?_split {α : Type} (x : α) (post : List α) :
    ∀ pre : List α, (pre ++ x :: post)[pre.length]? = some x
  | [] => by simp
  | z :: pre => by
    rw [List.cons_append, List.length_cons, List.getElem?_cons_succ]
    exact getElem?_split x post pre

mutual
theorem ctxOk_of_mem_subtreeLocs (l : Loc) :
    ∀ (n : Node) (ctx : List (Node × Nat)), l ∈ subtreeLocs ctx n → ctxOk ctx n →
      ctxOk l.ctx l.node ∧ topOf l.ctx l.node = topOf ctx n
  | .mk t d a cs, ctx, hl, hok => by
    rw [subtreeLocs, List.mem_cons] at hl
    rcases hl with hl | hl
    · rw [hl]
      exact ⟨hok, rfl⟩
    · exact ctxOk_of_mem_childLocs l (.mk t d a cs) cs ctx 0 [] hl rfl rfl hok
theorem ctxOk_of_mem_childLocs (l : Loc) (parent : Node) :
    ∀ (cs : List Node) (ctx : List (Node × Nat)) (i : Nat) (pre : List Node),
      l ∈ childLocs parent ctx i cs → parent.children = pre ++ cs → pre.length = i →
      ctxOk ctx parent → ctxOk l.ctx l.node ∧ topOf l.ctx l.node = topOf ctx parent
  | [], ctx, i, pre, hl, _, _, _ => by
    rw [childLocs] at hl
    exact absurd hl (List.not_mem_nil l)
  | c :: rest, ctx, i, pre, hl, hch, hlen, hok => by
    rw [childLocs, List.mem_append] at hl
    rcases hl with hl | hl
    · have hc : ctxOk ((parent, i) :: ctx) c := by
        refine ⟨?_, hok⟩
        rw [hch, ← hlen]
        exact getElem?_split c rest pre
      have := ctxOk_of_mem_subtreeLocs l c ((parent, i) :: ctx) hl hc
      exact ⟨this.1, this.2.trans rfl⟩
    · exact ctxOk_of_mem_childLocs l parent rest ctx (i + 1) (pre ++ [c]) hl
        (by rw [hch, List.append_assoc]; rfl) (by rw [List.length_append, hlen]; rfl) hok
end

/-- The subtree of a node, split around one of its children. -/
theorem subtreeLocs_split (q : Node) (rest : List (Node × Nat)) (pre : List Node) (m : Node)
    (post : List Node) (hq : q.children = pre ++ m :: post) :
    subtreeLocs rest q = ⟨rest, q⟩ ::
      (childLocs q rest 0 pre ++
        (subtreeLocs ((q, pre.length) :: rest) m ++ childLocs q rest (pre.length + 1) post)) := by
  cases q with
  | mk t d a cs =>
    simp only [Node.children] at hq
    subst hq
    rw [subtreeLocs, childLocs_append, childLocs, Nat.zero_add]

theorem mem_subtreeLocs_of_mem_child {q : Node} {rest : List (Node × Nat)} {pre : List Node}
    {m : Node} {post : List Node} (hq : q.children = pre ++ m :: post) {l : Loc}
    (hl : l ∈ subtreeLocs ((q, pre.length) :: rest) m) : l ∈ subtreeLocs rest q := by
  rw [subtreeLocs_split q rest pre m post hq]
  exact List.mem_cons_of_mem _ (List.mem_append_right _ (List.mem_append_left _ hl))

/-- Filtering the subtree of a node with a test that keeps everything outside the subtree of
one child only filters the subtree of that child. -/
theorem filter_subtreeLocs_split (keep : Loc → Bool) (q : Node) (rest : List (Node × Nat))
    (pre : List Node) (m : Node) (post : List Node) (hq : q.children = pre ++ m :: post)
    (hkeep : ∀ l, l ∉ subtreeLocs ((q, pre.length) :: rest) m → keep l = true) :
    (subtreeLocs rest q).filter keep = ⟨rest, q⟩ ::
      (childLocs q rest 0 pre ++
        ((subtreeLocs ((q, pre.length) :: rest) m).filter keep
          ++ childLocs q rest (pre.length + 1) post)) := by
  have hnd := nodup_subtreeLocs q rest
  rw [subtreeLocs_split q rest pre m post hq, List.nodup_cons, List.nodup_append] at hnd
  obtain ⟨hhead, _, hrest, hdisj1⟩ := hnd
  rw [List.nodup_append] at hrest
  obtain ⟨_, _, hdisj2⟩ := hrest
  have h1 : keep ⟨rest, q⟩ = true :=
    hkeep _ (fun h => hhead (List.mem_append_right _ (List.mem_append_left _ h)))
  have h2 : (childLocs q rest 0 pre).filter keep = childLocs q rest 0 pre := by
    rw [List.filter_eq_self]
    exact fun l hl => hkeep l (fun h => hdisj1 hl (List.mem_append_left _ h))
  have h3 : (childLocs q rest (pre.length + 1) post).filter keep
      = childLocs q rest (pre.length + 1) post := by
    rw [List.filter_eq_self]
    exact fun l hl => hkeep l (fun h => hdisj2 h hl)
  rw [subtreeLocs_split q rest pre m post hq, List.filter_cons_of_pos h1, List.filter_append,
    List.filter_append, h2, h3]

theorem stamps_setChildren (d : Nat) (q : Node) (cs : List Node) :
    stamps d (q.setChildren cs) = (d, q.Typ, q.Data, q.Attr) :: stampsList (d + 1) cs := by
  rw [Node.setChildren, stamps]

/-- The stamps of the filtered subtree of a node in terms of those of one child. -/
theorem stamps_filter_split (keep : Loc → Bool) (q : Node) (rest : List (Node × Nat))
    (pre : List Node) (m : Node) (post : List Node) (hq : q.children = pre ++ m :: post)
    (hkeep : ∀ l, l ∉ subtreeLocs ((q, pre.length) :: rest) m → keep l = true) :
    ((subtreeLocs rest q).filter keep).map Loc.stamp
      = (rest.length, q.Typ, q.Data, q.Attr) ::
        (stampsList (rest.length + 1) pre ++
          (((subtreeLocs ((q, pre.length) :: rest) m).filter keep).map Loc.stamp
            ++ stampsList (rest.length + 1) post)) := by
  rw [filter_subtreeLocs_split keep q rest pre m post hq hkeep, List.map_cons, List.map_append,
    List.map_append, stamps_childLocs, stamps_childLocs]
  rfl

/-- Replacing a child by a node whose stamps are those of the filtered subtree of the child
gives a node whose stamps are those of the filtered subtree of the parent. -/
theorem stamps_set_child (keep : Loc → Bool) (q : Node) (rest : List (Node × Nat))
    (pre : List Node) (m m2 : Node) (post : List Node) (hq : q.children = pre ++ m :: post)
    (hkeep : ∀ l, l ∉ subtreeLocs ((q, pre.length) :: rest) m → keep l = true)
    (hm : stamps (rest.length + 1) m2
      = ((subtreeLocs ((q, pre.length) :: rest) m).filter keep).map Loc.stamp) :
    stamps rest.length (q.setChildren (q.children.set pre.length m2))
      = ((subtreeLocs rest q).filter keep).map Loc.stamp := by
  rw [stamps_filter_split keep q rest pre m post hq hkeep, stamps_setChildren, hq,
    set_split m m2 post pre, stampsList_append, stampsList, hm]

/-- Erasing a child gives a node whose stamps are those of the subtree of the parent without
the subtree of the child. -/
theorem stamps_erase_child (q : Node) (rest : List (Node × Nat)) (pre : List Node) (m : Node)
    (post : List Node) (hq : q.children = pre ++ m :: post) :
    stamps rest.length (q.setChildren (q.children.eraseIdx pre.length))
      = ((subtreeLocs rest q).filter
          (Loc.outside ⟨(q, pre.length) :: rest, m⟩)).map Loc.stamp := by
  have hkeep : ∀ l, l ∉ subtreeLocs ((q, pre.length) :: rest) m →
      Loc.outside ⟨(q, pre.length) :: rest, m⟩ l = true := by
    intro l hl
    simpa [Loc.outside, Loc.subtree] using hl
  have hnil : (subtreeLocs ((q, pre.length) :: rest) m).filter
      (Loc.outside ⟨(q, pre.length) :: rest, m⟩) = [] := by
    rw [List.filter_eq_nil_iff]
    intro l hl
    simpa [Loc.outside, Loc.subtree] using hl
  rw [stamps_filter_split _ q rest pre m post hq hkeep, hnil, stamps_setChildren, hq,
    eraseIdx_split m post pre, stampsList_append]
  rfl

/-- Along the chain of ancestors of a place whose node has been replaced: the stamps of every
rebuilt ancestor, and of the rebuilt root, are those of the filtered subtree of the former
one. -/
theorem stamps_rebuild (keep : Loc → Bool) :
    ∀ (ctx : List (Node × Nat)) (m m2 : Node), ctxOk ctx m →
      (∀ l, l ∉ subtreeLocs ctx m → keep l = true) →
      stamps ctx.length m2 = ((subtreeLocs ctx m).filter keep).map Loc.stamp →
      (ancestorsOf (rebuild ctx m2)).map (fun a => a.subtree.map Loc.stamp)
          = (ancestorsOf ctx).map (fun a => (a.subtree.filter keep).map Loc.stamp) ∧
        stamps 0 (topOf (rebuild ctx m2) m2)
          = ((subtreeLocs [] (topOf ctx m)).filter keep).map Loc.stamp
  | [], m, m2, _, _, hm => ⟨rfl, hm⟩
  | (q, j) :: rest, m, m2, hok, hkeep, hm => by
    obtain ⟨hidx, hokq⟩ := hok
    obtain ⟨pre, post, hq, hlen⟩ := split_of_getElem? q.children j m hidx
    subst hlen
    have hq2 : stamps rest.length (q.setChildren (q.children.set pre.length m2))
        = ((subtreeLocs rest q).filter keep).map Loc.stamp :=
      stamps_set_child keep q rest pre m m2 post hq hkeep hm
    have hkeepq : ∀ l, l ∉ subtreeLocs rest q → keep l = true :=
      fun l hl => hkeep l (fun h => hl (mem_subtreeLocs_of_mem_child hq h))
    obtain ⟨ih1, ih2⟩ := stamps_rebuild keep rest q
      (q.setChildren (q.children.set pre.length m2)) hokq hkeepq hq2
    refine ⟨?_, ?_⟩
    · rw [rebuild, ancestorsOf, ancestorsOf, List.map_cons, List.map_cons, ih1]
      congr 1
      rw [Loc.subtree, stamps_subtreeLocs, rebuild_length]
      exact hq2
    · rw [rebuild, topOf, topOf]
      cases hr : rebuild rest (q.setChildren (q.children.set pre.length m2)) with
      | nil =>
        rw [hr] at ih2
        have hlen0 := rebuild_length (q.setChildren (q.children.set pre.length m2)) rest
        rw [hr] at hlen0
        cases rest with
        | nil => exact ih2
        | cons e r2 => simp at hlen0
      | cons e r2 =>
        rw [hr] at ih2
        exact ih2

theorem textOf_eq_stampText (ls : List Loc) : textOf ls = stampText (ls.map Loc.stamp) := by
  induction ls with
  | nil => rfl
  | cons l ls ih =>
    rw [textOf_cons, ih, stampText, stampText, List.map_cons]
    by_cases ht : l.node.Typ = NodeType.TextNode
    · have hf : stampIsText (Loc.stamp l) = true := by
        simpa [Loc.stamp, stampIsText] using ht
      rw [if_pos ht, List.filter_cons_of_pos hf, List.map_cons, join_cons]
      rfl
    · have hf : ¬ stampIsText (Loc.stamp l) = true := by
        simpa [Loc.stamp, stampIsText] using ht
      rw [if_neg ht, List.filter_cons_of_neg hf, String.empty_append]

theorem Text_eq_stampText (e : Element) :
    Element.Text e = stampText (e.subtree.map Loc.stamp) := by
  rw [Text_eq_textSpec, textSpec, textOf_eq_stampText]

/-- The effect of `Clear` on a coherent place with a parent, in terms of stamps. -/
theorem clear_stamps (p : Node) (i : Nat) (rest : List (Node × Nat)) (x : Node)
    (hok : ctxOk ((p, i) :: rest) x) :
    (Node.RemoveChild ⟨rest, p⟩ i).subtree.map Loc.stamp
        = ((subtreeLocs rest p).filter (Loc.outside ⟨(p, i) :: rest, x⟩)).map Loc.stamp ∧
      (ancestorsOf (Node.RemoveChild ⟨rest, p⟩ i).ctx).map (fun a => a.subtree.map Loc.stamp)
        = (ancestorsOf rest).map
          (fun a => (a.subtree.filter (Loc.outside ⟨(p, i) :: rest, x⟩)).map Loc.stamp) ∧
      (Node.RemoveChild ⟨rest, p⟩ i).top.subtree.map Loc.stamp
        = ((subtreeLocs [] (topOf rest p)).filter
            (Loc.outside ⟨(p, i) :: rest, x⟩)).map Loc.stamp ∧
      (Node.RemoveChild ⟨rest, p⟩ i).node.children = p.children.eraseIdx i := by
  obtain ⟨hidx, hokp⟩ := hok
  obtain ⟨pre, post, hq, hlen⟩ := split_of_getElem? p.children i x hidx
  subst hlen
  have hpar := stamps_erase_child p rest pre x post hq
  have hkeep : ∀ l, l ∉ subtreeLocs rest p → Loc.outside ⟨(p, pre.length) :: rest, x⟩ l = true := by
    intro l hl
    have : l ∉ subtreeLocs ((p, pre.length) :: rest) x :=
      fun h => hl (mem_subtreeLocs_of_mem_child hq h)
    simpa [Loc.outside, Loc.subtree] using this
  obtain ⟨h1, h2⟩ := stamps_rebuild (Loc.outside ⟨(p, pre.length) :: rest, x⟩) rest p
    (p.setChildren (p.children.eraseIdx pre.length)) hokp hkeep hpar
  refine ⟨?_, h1, ?_, rfl⟩
  · rw [Node.RemoveChild, Loc.replace, Loc.subtree, stamps_subtreeLocs, rebuild_length]
    exact hpar
  · rw [Node.RemoveChild, Loc.replace, Loc.top, Loc.subtree, stamps_subtreeLocs]
    exact h2

/-- C14: for every tree with root `root` and every node `n` of it that has a parent, `Clear n`
succeeds, and in the tree after the call: the document-order listing of the nodes (depth,
type, data, attributes) is the former listing without the nodes of the subtree of `n`, so
that every result of `FindAll` from the root, for every predicate, is one of the nodes that
were outside the subtree of `n`; the text of the former parent and of every former ancestor
is the concatenation of the text nodes of its former subtree that were outside the subtree
of `n`; and the children of the former parent are the former children without the one at the
index of `n`, in the same order. -/
theorem C14_cleared_node_leaves_tree (root : Node) (n : Loc)
    (hn : n ∈ (⟨[], root⟩ : Loc).subtree) (hp : n.Parent ≠ none) :
    ∃ res, Element.Clear n = .ok res ∧
      res.parent.top.subtree.map Loc.stamp
        = ((⟨[], root⟩ : Loc).subtree.filter (fun l => decide (l ∉ n.subtree))).map Loc.stamp ∧
      (∀ q : Match,
        ((HTMLParser.FindAll ⟨res.parent.top.node⟩ (some q)).map Loc.stamp).Sublist
          (((⟨[], root⟩ : Loc).subtree.filter (fun l => decide (l ∉ n.subtree))).map
            Loc.stamp)) ∧
      (res.parent :: ancestorsOf res.parent.ctx).map Element.Text
        = (ancestorsOf n.ctx).map
          (fun a => textOf (a.subtree.filter (fun l => decide (l ∉ n.subtree)))) ∧
      (∃ parent i, n.Parent = some parent ∧ parent.node.children[i]? = some n.node ∧
        res.parent.node.children = parent.node.children.eraseIdx i ∧
        res.parent.node.children.Sublist parent.node.children) := by
  obtain ⟨ctx, x⟩ := n
  cases ctx with
  | nil => exact absurd rfl hp
  | cons e rest =>
    obtain ⟨p, i⟩ := e
    have hok := ctxOk_of_mem_subtreeLocs _ root [] hn trivial
    obtain ⟨hctx, htop⟩ := hok
    simp only [topOf] at htop
    obtain ⟨h1, h2, h3, h4⟩ := clear_stamps p i rest x hctx
    have hroot : (Node.RemoveChild ⟨rest, p⟩ i).top.subtree.map Loc.stamp
        = ((⟨[], root⟩ : Loc).subtree.filter
            (fun l => decide (l ∉ (⟨(p, i) :: rest, x⟩ : Loc).subtree))).map Loc.stamp := by
      rw [h3, htop]
      rfl
    refine ⟨⟨Node.RemoveChild ⟨rest, p⟩ i, ⟨[], x⟩⟩, rfl, hroot, ?_, ?_, ?_⟩
    · intro q
      rw [← hroot]
      apply List.Sublist.map
      have : HTMLParser.FindAll ⟨(Node.RemoveChild ⟨rest, p⟩ i).top.node⟩ (some q)
          = findAllSpec (Node.RemoveChild ⟨rest, p⟩ i).top q :=
        selectAllNodes_eq_findAllSpec _ q
      rw [this, findAllSpec]
      exact List.filter_sublist _
    · simp only [ancestorsOf, List.map_cons]
      congr 1
      · rw [Text_eq_stampText, h1, textOf_eq_stampText]
        rfl
      · have := congrArg (List.map stampText) h2
        simp only [List.map_map] at this
        have hl : (ancestorsOf (Node.RemoveChild ⟨rest, p⟩ i).ctx).map Element.Text
            = (ancestorsOf (Node.RemoveChild ⟨rest, p⟩ i).ctx).map
                (stampText ∘ fun a => a.subtree.map Loc.stamp) :=
          List.map_congr_left (fun a _ => Text_eq_stampText a)
        rw [hl, this]
        exact List.map_congr_left (fun a _ => (textOf_eq_stampText _).symm)
    · refine ⟨⟨rest, p⟩, i, rfl, hctx.1, h4, ?_⟩
      rw [h4]
      exact List.eraseIdx_sublist _ _

/-- Witness of C14: clearing the first paragraph of `<p>1</p><p>2</p>`: the tree after the
call lists the document, `html`, `head`, `body`, the second paragraph and its text, and the
text of `body`, `html` and the document is `2`. -/
theorem C14_cleared_node_leaves_tree_witness :
    ∃ res, Element.Clear firstParagraphLoc = .ok res ∧
      res.parent.top.subtree.map Loc.stamp
        = [(0, .DocumentNode, "", none), (1, .ElementNode, "html", none),
            (2, .ElementNode, "head", none), (2, .ElementNode, "body", none),
            (3, .ElementNode, "p", none), (4, .TextNode, "2", none)] ∧
      (res.parent :: ancestorsOf res.parent.ctx).map Element.Text = ["2", "2", "2"] := by
  obtain ⟨res, hres, hstamps, _, htext, _⟩ :=
    C14_cleared_node_leaves_tree (parsed twoParagraphs) firstParagraphLoc (by decide)
      (fun h => Option.noConfusion h)
  exact ⟨res, hres, hstamps.trans (by decide), htext.trans (by decide)⟩

/-! ## What the walks do at and after a match -/

/-- A selected node is the only outermost selected node of its subtree. -/
theorem outermost_of_selects (selection : Match) (ctx : List (Node × Nat)) (n : Node)
    (h : selection.selects ⟨ctx, n⟩ = true) : outermost selection ctx n = [⟨ctx, n⟩] := by
  cases n with
  | mk t d a cs => rw [outermost, if_pos h]

theorem selectAllNodesCrawler_nil (selection : Match) (ctx : List (Node × Nat)) (n : Node) :
    selectAllNodesCrawler selection ctx n [] = outermost selection ctx n := by
  rw [selectAllNodesCrawler_eq, List.nil_append]

theorem selectAllNodesLoop_nil (selection : Match) (parent : Node) (ctx : List (Node × Nat))
    (i : Nat) (cs : List Node) :
    selectAllNodesLoop selection parent ctx i cs [] = outermostChildren selection parent ctx i cs := by
  rw [selectAllNodesLoop_eq, List.nil_append]

/-- C21: for every search root and every non-nil predicate, `Find` returns the last element
of `FindAll` (from an element and from a parsed document), hence that element whenever
`FindAll` is non-empty.  The crawler of `selectNode` does not stop the walk at a match: started
with an earlier result `wnode` on a subtree, or on the remaining siblings of a loop, it ends on
the last match that the crawler of `selectAllNodes` lists there, and keeps `wnode` only when
there is none. -/
theorem C21_find_returns_last_of_findAll (root : Loc) (p : HTMLParser) (selection : Match) :
    Element.Find root (some selection) = (Element.FindAll root (some selection)).getLast? ∧
      HTMLParser.Find p (some selection) = (HTMLParser.FindAll p (some selection)).getLast? ∧
      (∀ h : Element.FindAll root (some selection) ≠ [],
        Element.Find root (some selection)
          = some ((Element.FindAll root (some selection)).getLast h)) ∧
      (∀ h : HTMLParser.FindAll p (some selection) ≠ [],
        HTMLParser.Find p (some selection)
          = some ((HTMLParser.FindAll p (some selection)).getLast h)) ∧
      (∀ (ctx : List (Node × Nat)) (n : Node) (wnode : Option Element),
        selectNodeCrawler selection ctx n wnode
          = (wnode.toList ++ selectAllNodesCrawler selection ctx n []).getLast?) ∧
      (∀ (parent : Node) (ctx : List (Node × Nat)) (i : Nat) (cs : List Node)
          (wnode : Option Element),
        selectNodeLoop selection parent ctx i cs wnode
          = (wnode.toList ++ selectAllNodesLoop selection parent ctx i cs []).getLast?) := by
  have hroot : Element.Find root (some selection)
      = (Element.FindAll root (some selection)).getLast? := selectNode_eq_getLast? root selection
  have hdoc : HTMLParser.Find p (some selection)
      = (HTMLParser.FindAll p (some selection)).getLast? :=
    selectNode_eq_getLast? ⟨[], p.root⟩ selection
  refine ⟨hroot, hdoc, ?_, ?_, ?_, ?_⟩
  · intro h
    rw [hroot, List.getLast?_eq_getLast _ h]
  · intro h
    rw [hdoc, List.getLast?_eq_getLast _ h]
  · intro ctx n wnode
    rw [selectNodeCrawler_eq, selectAllNodesCrawler_nil]
  · intro parent ctx i cs wnode
    rw [selectNodeLoop_eq, selectAllNodesLoop_nil]

/-- Witness of C21: on the document of `<p>1</p><p>2</p>` with `{name: "p"}` the result of
`FindAll` is not empty, and `Find` returns the second paragraph, its last element. -/
theorem C21_find_returns_last_of_findAll_witness :
    HTMLParser.FindAll ⟨parsed twoParagraphs⟩ (some (nameMatch "p"))
        = [firstParagraphLoc, secondParagraphLoc] ∧
      HTMLParser.Find ⟨parsed twoParagraphs⟩ (some (nameMatch "p")) = some secondParagraphLoc :=
  ⟨by decide,
    ((C21_find_returns_last_of_findAll ⟨[], parsed twoParagraphs⟩ ⟨parsed twoParagraphs⟩
      (nameMatch "p")).2.2.2.1 (by decide)).trans (by decide)⟩

/-- C22: a search rooted at an element tests that element itself: for every element `e` and
every non-nil predicate that matches `e`, `Element.FindAll e` is exactly `[e]` and
`Element.Find e` returns `e`, so no other node of the subtree of `e` is returned. -/
theorem C22_search_tests_its_root (e : Element) (selection : Match)
    (hel : e.node.Typ = NodeType.ElementNode) (hm : selection.MatchNode e = true) :
    Element.FindAll e (some selection) = [e] ∧
      Element.Find e (some selection) = some e ∧
      (∀ d ∈ e.subtree, d ≠ e → d ∉ Element.FindAll e (some selection)) := by
  have hsel : selection.selects ⟨e.ctx, e.node⟩ = true := by
    rw [Loc.eta]
    simp only [Match.selects, Bool.and_eq_true, decide_eq_true_eq]
    exact ⟨hel, hm⟩
  have hall : Element.FindAll e (some selection) = [e] := by
    have h1 : Element.FindAll e (some selection) = outermost selection e.ctx e.node :=
      selectAllNodes_eq_outermost e selection
    rw [h1, outermost_of_selects selection e.ctx e.node hsel, Loc.eta]
  have hfind : Element.Find e (some selection) = some e := by
    have h2 : Element.Find e (some selection)
        = (Element.FindAll e (some selection)).getLast? := selectNode_eq_getLast? e selection
    rw [h2, hall]
    rfl
  refine ⟨hall, hfind, ?_⟩
  intro d _ hne hd
  rw [hall, List.mem_singleton] at hd
  exact hne hd

/-- Witness of C22: the result container is an element matched by
`{name: "div", attributes: {class: "g"}}`; searching from it with that predicate returns the
container itself, not the `div` it holds. -/
theorem C22_search_tests_its_root_witness :
    resultLoc.node.Typ = NodeType.ElementNode ∧ containerMatch.MatchNode resultLoc = true ∧
      Element.FindAll resultLoc (some containerMatch) = [resultLoc] ∧
      Element.Find resultLoc (some containerMatch) = some resultLoc :=
  ⟨by decide, by decide,
    (C22_search_tests_its_root resultLoc containerMatch (by decide) (by decide)).1,
    (C22_search_tests_its_root resultLoc containerMatch (by decide) (by decide)).2.1⟩

end Dorkali
